import Mathlib

set_option maxHeartbeats 1000000

/-!
Verification development for the textarea-autocomplete predictive-text engine.

The development shallowly embeds the language-model core of the repository:
the `AdvancedTokenizer` vocabulary manager and tokenizer, the sparse
`NGramStore` n-gram counter, the `StupidBackoffModel` multiplicative-backoff
scorer, and the exclusion-backoff `PPMModel` (google.ts), plus the
constructor validation of the `PPM` class (ppm.ts).

Modeling conventions: JS `Map`s are association lists preserving insertion
order (`Map.set` updates in place or appends); JS `Set`s are duplicate-free
lists in insertion order; JS floating-point arithmetic on probabilities is
modeled exactly over `ℚ` (0.4 is exactly 2/5 in the source's constants);
the `NGramStore` string keys `"id1,id2"` produced by `toKey` (comma-joined
decimal ids) form an injective encoding of the id list, so the maps are
modeled keyed by the id list itself.
-/

abbrev TokenID := Nat

/-- Association-list lookup for string keys (models `Map.get`, absent = `none`). -/
def lookupStr : List (String × Nat) → String → Option Nat
  | [], _ => none
  | (k, v) :: rest, t => if k = t then some v else lookupStr rest t

/-- Vocabulary state of `AdvancedTokenizer` (src/unnamed/part_003): the
bidirectional mapping `wordToId` / `idToWord`. -/
structure TokState where
  wordToId : List (String × Nat)
  idToWord : List String

/-- `AdvancedTokenizer.registerToken` (part_003, lines 69-77): return the
existing id of `w`, or assign the next free index and extend both maps. -/
def registerToken (s : TokState) (w : String) : TokState × TokenID :=
  match lookupStr s.wordToId w with
  | some id => (s, id)
  | none =>
      let id := s.idToWord.length
      (⟨s.wordToId ++ [(w, id)], s.idToWord ++ [w]⟩, id)

/-- Reserved id of `<UNK>`, assigned first by the constructor. -/
def UNK_ID : TokenID := 0

/-- Reserved id of `<S>` (begin of sentence), assigned second. -/
def BOS_ID : TokenID := 1

/-- Reserved id of `</S>` (end of sentence), assigned third. -/
def EOS_ID : TokenID := 2

/-- Tokenizer state right after the `AdvancedTokenizer` constructor
registered `<UNK>`, `<S>`, `</S>` (ids 0, 1, 2). -/
def tokNew : TokState :=
  (registerToken (registerToken (registerToken ⟨[], []⟩ "<UNK>").1 "<S>").1 "</S>").1

/-- `TokenizerConfig` of `AdvancedTokenizer` (part_003, lines 29-32). -/
structure TokenizerConfig where
  normalizeYo : Bool
  minWordLength : Nat

/-- The defaults used by the constructor when no overrides are given. -/
def defaultTokCfg : TokenizerConfig := ⟨true, 1⟩

/-- `AdvancedTokenizer.preprocessText` (part_003, lines 162-176): lowercase and
optionally fold `ё` to `е`. NFC normalization is the identity in this model;
locale-aware lowercasing is modeled by `Char.toLower`. -/
def preprocessText (cfg : TokenizerConfig) (text : String) : String :=
  let lowered := String.mk (text.data.map Char.toLower)
  if cfg.normalizeYo then String.mk (lowered.data.map fun c => if c = 'ё' then 'е' else c)
  else lowered

/-- One match of the token regex of `AdvancedTokenizer.tokenize`: either a word
(letter run with internal hyphens, or a digit run) or a sentence-ending
punctuation run `[.?!;]+`. -/
inductive Lexeme where
  | word (w : String)
  | punct
deriving DecidableEq

/-- Models the regex class `\p{L}` (restricted to the decidable `Char.isAlpha`). -/
def isLetterChar (c : Char) : Bool := c.isAlpha

/-- Models the regex class `\p{N}` (restricted to `Char.isDigit`). -/
def isDigitChar (c : Char) : Bool := c.isDigit

/-- The character class `[\p{L}-]` used inside hyphenated words. -/
def isLetterOrHyphen (c : Char) : Bool := isLetterChar c || c = '-'

/-- The sentence-boundary class `[.?!;]`. -/
def isPunctChar (c : Char) : Bool := c = '.' || c = '?' || c = '!' || c = ';'

/-- Remove trailing hyphens: the regex word alternative
`\p{L}[\p{L}-]*\p{L}|\p{L}+` matches the maximal letter/hyphen run with
trailing hyphens backtracked away. -/
def trimTrailingHyphens (l : List Char) : List Char :=
  (l.reverse.dropWhile (fun c => c = '-')).reverse

theorem length_dropWhile_le {α : Type} (p : α → Bool) :
    ∀ l : List α, (l.dropWhile p).length ≤ l.length := by
  intro l
  induction l with
  | nil => simp [List.dropWhile]
  | cons a l ih =>
      by_cases h : p a = true
      · rw [List.dropWhile_cons, if_pos h]
        exact Nat.le_succ_of_le ih
      · rw [List.dropWhile_cons, if_neg h]

/-- The scanner of `AdvancedTokenizer.tokenize` (part_003, lines 118-146's
regex loop), driven by a fuel counter so the recursion is structural: each
step consumes at least one character, so fuel `l.length` (as supplied by
`lexChars`) always suffices. -/
def lexCharsFuel : Nat → List Char → List Lexeme
  | 0, _ => []
  | _, [] => []
  | fuel + 1, c :: cs =>
    if isLetterChar c = true then
      Lexeme.word (String.mk (trimTrailingHyphens ((c :: cs).takeWhile isLetterOrHyphen)))
        :: lexCharsFuel fuel ((c :: cs).dropWhile isLetterOrHyphen)
    else if isDigitChar c = true then
      Lexeme.word (String.mk ((c :: cs).takeWhile isDigitChar))
        :: lexCharsFuel fuel ((c :: cs).dropWhile isDigitChar)
    else if isPunctChar c = true then
      Lexeme.punct :: lexCharsFuel fuel ((c :: cs).dropWhile isPunctChar)
    else lexCharsFuel fuel cs

/-- Produce the sequence of word and punctuation matches of the scanner,
skipping all other characters. -/
def lexChars (l : List Char) : List Lexeme := lexCharsFuel l.length l

/-- The emission loop of `AdvancedTokenizer.tokenize` (part_003, lines
120-146). The accumulator `acc` holds the emitted ids in reverse (push =
cons); `flag` is `isSentenceStart`. Words shorter than `minWordLength` are
skipped; a punctuation run emits `</S><S>` unless already at a sentence
start. -/
def processLexemes (cfg : TokenizerConfig) :
    TokState → List Lexeme → List TokenID → Bool → TokState × List TokenID × Bool
  | st, [], acc, flag => (st, acc, flag)
  | st, Lexeme.word w :: rest, acc, flag =>
      if w.length < cfg.minWordLength then processLexemes cfg st rest acc flag
      else
        let r := registerToken st w
        processLexemes cfg r.1 rest (r.2 :: acc) false
  | st, Lexeme.punct :: rest, acc, flag =>
      if flag then processLexemes cfg st rest acc flag
      else processLexemes cfg st rest (BOS_ID :: EOS_ID :: acc) true

/-- `AdvancedTokenizer.tokenize` (part_003, lines 102-157): preprocess, scan,
emit with sentence markers, then close the stream (drop a dangling `<S>`,
otherwise append `</S>` unless already present). -/
def tokenize (cfg : TokenizerConfig) (st : TokState) (text : String) :
    TokState × List TokenID :=
  let lexs := lexChars (preprocessText cfg text).data
  let r := processLexemes cfg st lexs [BOS_ID] true
  let acc := r.2.1
  let fixed :=
    if acc.head? = some BOS_ID then acc.tail
    else if acc.head? = some EOS_ID then acc
    else EOS_ID :: acc
  (r.1, fixed.reverse)

/-- Association-list lookup keyed by id lists (see the header note on `toKey`). -/
def lookupKey {β : Type} : List (List TokenID × β) → List TokenID → Option β
  | [], _ => none
  | (k, v) :: rest, t => if k = t then some v else lookupKey rest t

/-- `NGramStore` (src/unnamed/part_005): sparse counts, the context → candidate
index, and the running unigram total. -/
structure NGramStore where
  counts : List (List TokenID × Nat)
  contextMap : List (List TokenID × List TokenID)
  totalTokens : Nat

/-- The store created by the `NGramStore` constructor. -/
def emptyNGramStore : NGramStore := ⟨[], [], 0⟩

/-- `counts.set(key, (counts.get(key) || 0) + 1)` on the assoc list. -/
def bumpCountN : List (List TokenID × Nat) → List TokenID → List (List TokenID × Nat)
  | [], g => [(g, 1)]
  | (k, v) :: rest, g => if k = g then (k, v + 1) :: rest else (k, v) :: bumpCountN rest g

/-- Register `cand` in the candidate set of `ctx` (a JS `Set`: append only if
absent; a new context key is appended at the end). -/
def addCandidate : List (List TokenID × List TokenID) → List TokenID → TokenID →
    List (List TokenID × List TokenID)
  | [], ctx, cand => [(ctx, [cand])]
  | (k, s) :: rest, ctx, cand =>
      if k = ctx then (k, if cand ∈ s then s else s ++ [cand]) :: rest
      else (k, s) :: addCandidate rest ctx cand

/-- `NGramStore.increment` (part_005, lines 33-54): bump the count, bump the
unigram total for 1-grams, and register context → last token for n-grams of
length > 1 only. -/
def NGramStore.increment (σ : NGramStore) (ngram : List TokenID) : NGramStore :=
  { counts := bumpCountN σ.counts ngram
    totalTokens := if ngram.length = 1 then σ.totalTokens + 1 else σ.totalTokens
    contextMap :=
      if 1 < ngram.length then addCandidate σ.contextMap ngram.dropLast (ngram.getLastD 0)
      else σ.contextMap }

/-- `NGramStore.getCount` (part_005, lines 56-58). -/
def NGramStore.getCount (σ : NGramStore) (ngram : List TokenID) : Nat :=
  (lookupKey σ.counts ngram).getD 0

/-- `NGramStore.getTotalTokens` (part_005, lines 60-62). -/
def NGramStore.getTotalTokens (σ : NGramStore) : Nat := σ.totalTokens

/-- `NGramStore.getCandidates` (part_005, lines 68-70). -/
def NGramStore.getCandidates (σ : NGramStore) (ctx : List TokenID) : List TokenID :=
  (lookupKey σ.contextMap ctx).getD []

/-- The `ALPHA = 0.4` constant of Stupid Backoff (part_004, line 10). -/
def ALPHA : ℚ := 0.4

/-- `StupidBackoffModel.getScore` (part_004, lines 67-97): unigram relative
frequency at empty context; MLE ratio when the n-gram is observed (guarded
against a zero context count); otherwise `ALPHA` times the score with the
oldest context token dropped. -/
def getScore (σ : NGramStore) (candidate : TokenID) : List TokenID → ℚ
  | [] =>
      if 0 < σ.getTotalTokens then (σ.getCount [candidate] : ℚ) / (σ.getTotalTokens : ℚ)
      else 0
  | c :: rest =>
      if 0 < σ.getCount ((c :: rest) ++ [candidate]) then
        if 0 < σ.getCount (c :: rest) then
          (σ.getCount ((c :: rest) ++ [candidate]) : ℚ) / (σ.getCount (c :: rest) : ℚ)
        else 0
      else ALPHA * getScore σ candidate rest

/-- `tokens.slice(i - k + 1, i + 1)`: the window of length `k` ending at
position `i`. -/
def window (T : List TokenID) (i k : Nat) : List TokenID := (T.drop (i + 1 - k)).take k

/-- The n-grams incremented by `StupidBackoffModel.train` at position `i`
(part_004, lines 56-60): windows of length `k = 1 .. n` ending at `i`,
skipping those that would start before the beginning. -/
def posIncs (n : Nat) (T : List TokenID) (i : Nat) : List (List TokenID) :=
  (List.range n).filterMap fun j => if j ≤ i then some (window T i (j + 1)) else none

/-- The token-level loop of `StupidBackoffModel.train` (part_004, lines 54-61). -/
def trainTokens (n : Nat) (σ : NGramStore) (T : List TokenID) : NGramStore :=
  (List.range T.length).foldl (fun σ i => (posIncs n T i).foldl NGramStore.increment σ) σ

/-- The flat list of all n-grams incremented by one `train` pass over `T`. -/
def incFlat (n : Nat) (T : List TokenID) : List (List TokenID) :=
  (List.range T.length).flatMap (posIncs n T)

/-- The state of a `StupidBackoffModel` (part_004): its tokenizer, store and
order `n`. -/
structure SBModel where
  tok : TokState
  store : NGramStore
  n : Nat

/-- `StupidBackoffModel.train` (part_004, lines 48-62): tokenize, then fold
all n-grams of orders `1 .. n` into the store. -/
def SBModel.train (m : SBModel) (text : String) : SBModel :=
  let r := tokenize defaultTokCfg m.tok text
  { m with tok := r.1, store := trainTokens m.n m.store r.2 }

/-- The model built by `getStupidBackoffModel` generalized over the order:
a fresh `AdvancedTokenizer` and an empty `NGramStore`. -/
def freshSBModel (n : Nat) : SBModel := ⟨tokNew, emptyNGramStore, n⟩

/-- `ContextNode` of the exclusion-backoff `PPMModel`
(src/src/models/PPM/google.ts, lines 26-52). -/
inductive CNode where
  | mk : List (String × Nat) → List (String × CNode) → Nat → CNode

/-- The `counts` map of a `ContextNode`. -/
def CNode.counts : CNode → List (String × Nat)
  | .mk c _ _ => c

/-- The `children` map of a `ContextNode`. -/
def CNode.children : CNode → List (String × CNode)
  | .mk _ ch _ => ch

/-- The `totalCount` field of a `ContextNode`. -/
def CNode.totalCount : CNode → Nat
  | .mk _ _ t => t

/-- `new ContextNode()`. -/
def emptyCNode : CNode := .mk [] [] 0

/-- `counts.set(token, (counts.get(token) || 0) + 1)` on the assoc list. -/
def bumpCountS : List (String × Nat) → String → List (String × Nat)
  | [], t => [(t, 1)]
  | (k, v) :: rest, t => if k = t then (k, v + 1) :: rest else (k, v) :: bumpCountS rest t

/-- `ContextNode.addToken` (google.ts, lines 39-43). -/
def CNode.addToken (n : CNode) (tok : String) : CNode :=
  .mk (bumpCountS n.counts tok) n.children (n.totalCount + 1)

/-- `children.get(word)`. -/
def lookupChild : List (String × CNode) → String → Option CNode
  | [], _ => none
  | (k, c) :: rest, w => if k = w then some c else lookupChild rest w

/-- `children.set(word, node)`: update in place, or append a new key. -/
def setChild : List (String × CNode) → String → CNode → List (String × CNode)
  | [], w, c => [(w, c)]
  | (k, c0) :: rest, w, c => if k = w then (k, c) :: rest else (k, c0) :: setChild rest w c

/-- `PPMModel.updateTrie` (google.ts, lines 128-139): walk/create the context
path, then `addToken` at the node reached. -/
def updateTrie : CNode → List String → String → CNode
  | node, [], tok => node.addToken tok
  | node, w :: rest, tok =>
      .mk node.counts
        (setChild node.children w
          (updateTrie ((lookupChild node.children w).getD emptyCNode) rest tok))
        node.totalCount

/-- `PPMModel.findNode` (google.ts, lines 253-261). -/
def findNode : CNode → List String → Option CNode
  | node, [] => some node
  | node, w :: rest =>
      match lookupChild node.children w with
      | none => none
      | some c => findNode c rest

/-- `Set.add` in insertion order: append only if absent. -/
def vocabAdd (vocab : List String) (t : String) : List String :=
  if t ∈ vocab then vocab else vocab ++ [t]

/-- The exclusion-backoff `PPMModel` (google.ts, lines 58-68). -/
structure PPMModelG where
  maxOrder : Nat
  root : CNode
  vocabulary : List String

/-- `PPMModel.train` (google.ts, lines 74-96): register all tokens in the
vocabulary, then insert the token under every context of order `0 .. maxOrder`
ending right before it. -/
def PPMModelG.train (m : PPMModelG) (tokens : List String) : PPMModelG :=
  if tokens = [] then m
  else
    { maxOrder := m.maxOrder
      vocabulary := tokens.foldl vocabAdd m.vocabulary
      root :=
        (List.range tokens.length).foldl
          (fun r i =>
            (List.range (m.maxOrder + 1)).foldl
              (fun r order =>
                if order ≤ i then
                  updateTrie r ((tokens.drop (i - order)).take order) (tokens.getD i "")
                else r) r) m.root }

/-- `new PPMModel({order})` (google.ts, lines 64-68). -/
def freshPPMG (order : Nat) : PPMModelG := ⟨order, emptyCNode, []⟩

/-- A model obtained from a fresh `PPMModel` by a sequence of `train` calls. -/
def trainAllG (order : Nat) (tss : List (List String)) : PPMModelG :=
  tss.foldl PPMModelG.train (freshPPMG order)

/-- `results.get(token) || 0`. -/
def getQ : List (String × ℚ) → String → ℚ
  | [], _ => 0
  | (k, v) :: rest, t => if k = t then v else getQ rest t

/-- `results.set(token, (results.get(token) || 0) + p)`: add in place, or
append a new key. -/
def addQ : List (String × ℚ) → String → ℚ → List (String × ℚ)
  | [], t, p => [(t, p)]
  | (k, v) :: rest, t, p => if k = t then (k, v + p) :: rest else (k, v) :: addQ rest t p

/-- `results.set(token, p)` (plain overwrite): replace in place, or append. -/
def setQ : List (String × ℚ) → String → ℚ → List (String × ℚ)
  | [], t, p => [(t, p)]
  | (k, v) :: rest, t, p => if k = t then (k, p) :: rest else (k, v) :: setQ rest t p

/-- The token loop of `PPMModel.calculateProbabilitiesRecursive` (google.ts,
lines 190-205): every observed token not yet excluded receives
`count/denominator * weight` and is added to the exclusion set. -/
def distribute (denom w : ℚ) :
    List (String × Nat) → List (String × ℚ) → List String → List (String × ℚ) × List String
  | [], res, ex => (res, ex)
  | (t, c) :: rest, res, ex =>
      if t ∈ ex then distribute denom w rest res ex
      else distribute denom w rest (addQ res t (((c : ℚ) / denom) * w)) (t :: ex)

/-- `PPMModel.handleOrderMinusOne` (google.ts, lines 227-248): spread the
remaining weight uniformly over vocabulary tokens not yet excluded. -/
def handleOrderMinusOne (vocab : List String) (res : List (String × ℚ)) (ex : List String)
    (w : ℚ) : List (String × ℚ) :=
  if vocab.length ≤ ex.length then res
  else
    vocab.foldl
      (fun r t => if t ∈ ex then r else setQ r t (w / ((vocab.length - ex.length : Nat) : ℚ)))
      res

/-- The `1e-9` early-cutoff threshold of the recursion (google.ts, line 156). -/
def cutoffThreshold : ℚ := 1 / 1000000000

/-- `PPMModel.calculateProbabilitiesRecursive` (google.ts, lines 149-221).
`cutoff` enables the `1e-9` early-stop guard (the source always runs with it
on; the spec's analysis turns it off). At a matched node mass
`count/(total+distinct) * weight` goes to each non-excluded observed token
and `weight * distinct/(total+distinct)` escapes to the context with its
oldest token dropped; an unmatched context forwards the weight unchanged;
the empty context falls through to `handleOrderMinusOne`. -/
def calcRec (root : CNode) (vocab : List String) (cutoff : Bool) :
    List String → List (String × ℚ) → List String → ℚ → List (String × ℚ)
  | [], res, ex, w =>
      if cutoff ∧ w < cutoffThreshold then res
      else
        match findNode root [] with
        | none => handleOrderMinusOne vocab res ex w
        | some node =>
            let denom : ℚ := (node.totalCount : ℚ) + (node.counts.length : ℚ)
            let p := distribute denom w node.counts res ex
            handleOrderMinusOne vocab p.1 p.2 (w * ((node.counts.length : ℚ) / denom))
  | c :: rest, res, ex, w =>
      if cutoff ∧ w < cutoffThreshold then res
      else
        match findNode root (c :: rest) with
        | none => calcRec root vocab cutoff rest res ex w
        | some node =>
            let denom : ℚ := (node.totalCount : ℚ) + (node.counts.length : ℚ)
            let p := distribute denom w node.counts res ex
            calcRec root vocab cutoff rest p.1 p.2 (w * ((node.counts.length : ℚ) / denom))

/-- Stable insertion into a list sorted by descending probability: models the
stable JS `sort((a, b) => b.probability - a.probability)`. -/
def insertDesc (x : String × ℚ) : List (String × ℚ) → List (String × ℚ)
  | [] => [x]
  | y :: ys => if y.2 ≤ x.2 then x :: y :: ys else y :: insertDesc x ys

/-- Stable descending sort by probability. -/
def sortDesc (l : List (String × ℚ)) : List (String × ℚ) := l.foldr insertDesc []

/-- `history.slice(-k)` on an array. -/
def jsSliceLast (l : List String) (k : Nat) : List String :=
  if k = 0 then l else l.drop (l.length - k)

/-- `PPMModel.predict` (google.ts, lines 103-121) with the early-cutoff guard
made explicit: trim the history to `maxOrder`, run the recursion from weight
1 with empty results and exclusions, and sort descending by probability. -/
def PPMModelG.predictWith (m : PPMModelG) (cutoff : Bool) (history : List String) :
    List (String × ℚ) :=
  sortDesc (calcRec m.root m.vocabulary cutoff (jsSliceLast history m.maxOrder) [] [] 1)

/-- `PPMModel.predict` exactly as in the source (cutoff guard enabled). -/
def PPMModelG.predict (m : PPMModelG) (history : List String) : List (String × ℚ) :=
  m.predictWith true history

/-- Sum of the scores of a prediction result list. -/
def sumScores (l : List (String × ℚ)) : ℚ := (l.map (·.2)).sum

/-- The configuration a model constructor accepts. -/
structure OrderCfg where
  order : Int

/-- The `PPM` constructor (src/src/models/PPM/ppm.ts, lines 32-35): throws
`"Order must be > 0"` when `order ≤ 0`. -/
def PPM.construct (order : Int) : Except String OrderCfg :=
  if order ≤ 0 then .error "Order must be > 0" else .ok ⟨order⟩

/-- In the reversed (most-recent-first) accumulator: every `</S>` that is not
the most recent symbol is immediately preceded (towards the head) by a `<S>`.
On the final output this is read through `List.reverse`: every `</S>` is
immediately followed by a `<S>`, except possibly the very last symbol. -/
def noBareEOS : List TokenID → Prop
  | x :: y :: rest => (y = EOS_ID → x = BOS_ID) ∧ noBareEOS (y :: rest)
  | _ => True

/-- In the reversed accumulator: every `<S>` is either the very first emitted
symbol (bottom of the accumulator) or sits immediately on top of a `</S>`. -/
def bosPaired : List TokenID → Prop
  | x :: y :: rest => (x = BOS_ID → y = EOS_ID) ∧ bosPaired (y :: rest)
  | _ => True

/-- Loop invariant of the emission loop of `tokenize`: the accumulator is
nonempty, its most recent symbol is `<S>` exactly when `isSentenceStart`
holds, `</S>` is never the most recent symbol inside the loop, and the
boundary-pairing properties hold. -/
def TokInv (acc : List TokenID) (flag : Bool) : Prop :=
  acc ≠ [] ∧ (flag = true ↔ acc.head? = some BOS_ID) ∧ acc.head? ≠ some EOS_ID ∧
    noBareEOS acc ∧ bosPaired acc

/-- Well-formedness of a tokenizer state: the sentinel strings are mapped to
their reserved ids and only to them, and every assigned id is below the size
of `idToWord` (so fresh ids never collide with the sentinels). Holds for the
constructor state and is preserved by `registerToken`. -/
def WFTok (s : TokState) : Prop :=
  lookupStr s.wordToId "<S>" = some BOS_ID ∧
  lookupStr s.wordToId "</S>" = some EOS_ID ∧
  (∀ w, lookupStr s.wordToId w = some BOS_ID → w = "<S>") ∧
  (∀ w, lookupStr s.wordToId w = some EOS_ID → w = "</S>") ∧
  3 ≤ s.idToWord.length ∧
  (∀ w id, lookupStr s.wordToId w = some id → id < s.idToWord.length)

/-- A word produced by the scanner: nonempty, made of letters, hyphens and
digits only. -/
def wordShaped (w : String) : Prop :=
  w.data ≠ [] ∧ ∀ c ∈ w.data, (isLetterOrHyphen c || isDigitChar c) = true

/-- Store invariant behind claim C10: counts never increase when the last
token of an n-gram is dropped. -/
def StoreMono (σ : NGramStore) : Prop :=
  ∀ g : List TokenID, 2 ≤ g.length → σ.getCount g ≤ σ.getCount g.dropLast

/-- Well-formedness of a context trie against a vocabulary: `totalCount` is
the sum of the `counts` values and every counted token is in the vocabulary,
recursively at every node. Established by `train` from a fresh model. -/
inductive WFNode : List String → CNode → Prop where
  | mk : ∀ (vocab : List String) (counts : List (String × Nat))
      (children : List (String × CNode)) (total : Nat),
      total = (counts.map (·.2)).sum →
      (∀ k ∈ counts.map Prod.fst, k ∈ vocab) →
      (∀ k c, (k, c) ∈ children → WFNode vocab c) →
      WFNode vocab (.mk counts children total)

/-- Result maps of the exclusion-backoff recursion carry only nonnegative
probabilities. -/
def ValsNonneg (res : List (String × ℚ)) : Prop := ∀ p ∈ res, 0 ≤ p.2

/-- The `StupidBackoffModel` constructor (part_004, lines 38-42): stores the
order with no validation. -/
def StupidBackoffModel.construct (order : Int) : Except String OrderCfg := .ok ⟨order⟩

/-- The `PPMModel` constructor (google.ts, lines 64-68): stores the order with
no validation. -/
def PPMModelG.construct (order : Int) : Except String OrderCfg := .ok ⟨order⟩

theorem mem_addCandidate (m : List (List TokenID × List TokenID)) (ctx : List TokenID)
    (cand t : TokenID) (C : List TokenID) :
    t ∈ (lookupKey (addCandidate m ctx cand) C).getD [] ↔
      t ∈ (lookupKey m C).getD [] ∨ (C = ctx ∧ t = cand) := by
  induction m with
  | nil =>
      by_cases h : ctx = C
      · subst h
        simp [addCandidate, lookupKey] <;> aesop
      · simp [addCandidate, lookupKey, h] <;> aesop
  | cons hd m ih =>
      obtain ⟨k, s⟩ := hd
      by_cases hk : k = ctx
      · subst hk
        by_cases hC : k = C
        · subst hC
          by_cases hc : cand ∈ s
          · simp [addCandidate, lookupKey, hc] <;> aesop
          · simp [addCandidate, lookupKey, hc] <;> aesop
        · simp [addCandidate, lookupKey, hC] <;> aesop
      · by_cases hC : k = C
        · subst hC
          simp [addCandidate, lookupKey, hk] <;> aesop
        · simp [addCandidate, lookupKey, hk, hC]
          exact ih

theorem increment_getCandidates (σ : NGramStore) (g : List TokenID) (C : List TokenID)
    (t : TokenID) :
    t ∈ (σ.increment g).getCandidates C ↔
      t ∈ σ.getCandidates C ∨ (C ≠ [] ∧ g = C ++ [t]) := by
  unfold NGramStore.increment NGramStore.getCandidates
  by_cases hlen : 1 < g.length
  · rcases List.eq_nil_or_concat g with rfl | ⟨L, b, rfl⟩
    · simp at hlen
    rw [List.concat_eq_append] at *
    simp only [hlen, if_pos]
    rw [mem_addCandidate, List.dropLast_concat, List.getLastD_concat]
    have hL : L ≠ [] := by
      intro h
      subst h
      simp at hlen
    constructor
    · rintro (h | ⟨rfl, rfl⟩)
      · exact Or.inl h
      · exact Or.inr ⟨hL, rfl⟩
    · rintro (h | ⟨-, hg⟩)
      · exact Or.inl h
      · have h1 : C = L := by
          have := congrArg List.dropLast hg
          simpa [List.dropLast_concat] using this.symm
        have h2 : t = b := by
          have := congrArg (fun l => List.getLastD l 0) hg
          simpa [List.getLastD_concat] using this.symm
        exact Or.inr ⟨h1, h2⟩
  · simp only [hlen, if_neg, not_false_iff]
    constructor
    · exact Or.inl
    · rintro (h | ⟨hC, hg⟩)
      · exact h
      · exfalso
        subst hg
        rw [List.length_append, List.length_singleton] at hlen
        cases C with
        | nil => exact hC rfl
        | cons a l => simp at hlen

theorem foldl_increment_getCandidates (incs : List (List TokenID)) :
    ∀ (σ : NGramStore) (C : List TokenID) (t : TokenID),
      t ∈ (incs.foldl NGramStore.increment σ).getCandidates C ↔
        t ∈ σ.getCandidates C ∨ (C ≠ [] ∧ C ++ [t] ∈ incs) := by
  induction incs with
  | nil => simp
  | cons g rest ih =>
      intro σ C t
      rw [List.foldl_cons, ih, increment_getCandidates]
      constructor
      · rintro ((h | ⟨hC, rfl⟩) | ⟨hC, h⟩)
        · exact Or.inl h
        · exact Or.inr ⟨hC, List.mem_cons_self _ _⟩
        · exact Or.inr ⟨hC, List.mem_cons_of_mem _ h⟩
      · rintro (h | ⟨hC, h⟩)
        · exact Or.inl (Or.inl h)
        · rcases List.mem_cons.mp h with h' | h'
          · exact Or.inl (Or.inr ⟨hC, h'.symm⟩)
          · exact Or.inr ⟨hC, h'⟩

/-- Claim C4, counterexample: the claim requires that after inserting the
1-gram `[5]` the candidate set of the empty context contains `5` (the
inserted n-gram has empty context immediately followed by `5`); the code
registers nothing for 1-grams, so the candidate set is empty. -/
theorem c4_counterexample :
    ¬ 5 ∈ (NGramStore.increment emptyNGramStore [5]).getCandidates [] := by decide

/-- Claim C4, amended: after every sequence of insertions starting from the
empty store, for every nonempty context `C` the candidate index contains `t`
iff some inserted n-gram was exactly `C` followed by `t`; the candidate set
of the empty context is always empty (length-1 insertions register nothing). -/
theorem c4_candidate_index (incs : List (List TokenID)) (C : List TokenID) (t : TokenID) :
    (C ≠ [] →
      (t ∈ (incs.foldl NGramStore.increment emptyNGramStore).getCandidates C ↔
        C ++ [t] ∈ incs)) ∧
    (incs.foldl NGramStore.increment emptyNGramStore).getCandidates [] = [] := by
  constructor
  · intro hC
    rw [foldl_increment_getCandidates]
    simp [emptyNGramStore, NGramStore.getCandidates, lookupKey, hC]
  · rw [List.eq_nil_iff_forall_not_mem]
    intro t'
    rw [foldl_increment_getCandidates]
    simp [emptyNGramStore, NGramStore.getCandidates, lookupKey]

/-- Witness for the amended claim C4 at a concrete input: after inserting
`[7, 9]` and `[9]`, the candidate set of context `[7]` contains `9` and does
not contain `7`, and the empty context has no candidates. -/
theorem c4_candidate_index_witness :
    (9 ∈ ([[7, 9], [9]].foldl NGramStore.increment emptyNGramStore).getCandidates [7] ∧
      ¬ 7 ∈ ([[7, 9], [9]].foldl NGramStore.increment emptyNGramStore).getCandidates [7]) ∧
    ([[7, 9], [9]].foldl NGramStore.increment emptyNGramStore).getCandidates [] = [] := by
  refine ⟨⟨?_, ?_⟩, (c4_candidate_index [[7, 9], [9]] [7] 9).2⟩
  · exact ((c4_candidate_index [[7, 9], [9]] [7] 9).1 (by decide)).mpr (by decide)
  · intro h
    exact absurd (((c4_candidate_index [[7, 9], [9]] [7] 7).1 (by decide)).mp h) (by decide)

/-- Claim C8, counterexample: constructing `StupidBackoffModel` or the
exclusion-backoff `PPMModel` with order 0 succeeds (no validation), while
the claim demands a fatal configuration error for every model class; only
`PPM` (ppm.ts) rejects it. -/
theorem c8_counterexample :
    (StupidBackoffModel.construct 0).isOk = true ∧
    (PPMModelG.construct 0).isOk = true ∧
    (PPM.construct 0).isOk = false := by decide

/-- Claim C8, amended: only the `PPM` class rejects an order ≤ 0 at
construction time; the `StupidBackoffModel` and exclusion-backoff `PPMModel`
constructors accept every order value without validation. -/
theorem c8_order_validation (order : Int) :
    ((PPM.construct order).isOk = true ↔ 0 < order) ∧
    (StupidBackoffModel.construct order).isOk = true ∧
    (PPMModelG.construct order).isOk = true := by
  refine ⟨?_, rfl, rfl⟩
  unfold PPM.construct
  by_cases h : order ≤ 0
  · rw [if_pos h]
    constructor
    · intro hh
      exact absurd hh (by decide)
    · intro hh
      omega
  · rw [if_neg h]
    constructor
    · intro _
      omega
    · intro _
      rfl

/-- Claim C3, counterexample: training once on `[the, cat, sat]` with order 2
and predicting from context `[the]` does not return `cat` with score 1.0;
the top-1 entry is `cat` with score 1/2 (the escape mass at the bigram node
is 1/2, and the leftover order −1 mass is silently dropped). -/
theorem c3_counterexample :
    ((trainAllG 2 [["the", "cat", "sat"]]).predict ["the"]).head? ≠
      some ("cat", 1) := by with_unfolding_all decide

/-- Claim C3, amended: for a model trained exactly once on `[the, cat, sat]`
with order 2, `predict` with context `[the]` returns `cat` as the top-1
suggestion with Exclusion-Backoff score 1/2. -/
theorem c3_top1 :
    ((trainAllG 2 [["the", "cat", "sat"]]).predict ["the"]).head? =
      some ("cat", 1/2) := by with_unfolding_all decide

/-- Claim C1, counterexample: for the model trained once on
`[the, cat, sat]` with order 2 and context `[the]`, with the early cutoff
disabled, the scores over the whole vocabulary sum to 2/3, not 1.0: the
order −1 handler returns without distributing the remaining mass once every
vocabulary word is excluded, and escape mass is not renormalized. -/
theorem c1_counterexample :
    sumScores ((trainAllG 2 [["the", "cat", "sat"]]).predictWith false ["the"]) ≠ 1 := by
  with_unfolding_all decide

/-- Claim C7, counterexample: with `minWordLength = 2`, tokenizing the digit
run `"7"` on a fresh tokenizer emits nothing at all (the boundary markers
are cleaned up as a dangling sentence), while the claim demands that digit
runs be exempt from the length filter and emitted regardless of length. -/
theorem c7_counterexample :
    (tokenize ⟨true, 2⟩ tokNew "7").2 = [] := by decide

theorem lookupKey_bumpCountN (counts : List (List TokenID × Nat)) (h g : List TokenID) :
    lookupKey (bumpCountN counts h) g =
      if h = g then some ((lookupKey counts g).getD 0 + 1) else lookupKey counts g := by
  induction counts with
  | nil => by_cases hg : h = g <;> simp [bumpCountN, lookupKey, hg]
  | cons hd rest ih =>
      obtain ⟨k, v⟩ := hd
      by_cases hk : k = h
      · subst hk
        by_cases hg : k = g
        · subst hg
          simp [bumpCountN, lookupKey]
        · simp [bumpCountN, lookupKey, hg]
      · by_cases hg : k = g
        · subst hg
          simp [bumpCountN, lookupKey, hk]
          rw [if_neg (fun hh : h = k => hk hh.symm)]
        · simp [bumpCountN, lookupKey, hk, hg, ih]

theorem increment_getCount (σ : NGramStore) (h g : List TokenID) :
    (σ.increment h).getCount g = σ.getCount g + if h = g then 1 else 0 := by
  unfold NGramStore.increment NGramStore.getCount
  simp only [lookupKey_bumpCountN]
  by_cases hg : h = g <;> simp [hg]

theorem foldl_increment_getCount (L : List (List TokenID)) :
    ∀ (σ : NGramStore) (g : List TokenID),
      (L.foldl NGramStore.increment σ).getCount g = σ.getCount g + List.count g L := by
  induction L with
  | nil => simp
  | cons a L ih =>
      intro σ g
      rw [List.foldl_cons, ih, increment_getCount, List.count_cons]
      by_cases hag : a = g <;> simp [hag] <;> omega

theorem foldl_flatMap {α β γ : Type} (f : γ → List β) (g : α → β → α) (l : List γ) :
    ∀ init : α, (l.flatMap f).foldl g init = l.foldl (fun a c => (f c).foldl g a) init := by
  induction l with
  | nil => intro init; rfl
  | cons c l ih =>
      intro init
      rw [List.flatMap_cons, List.foldl_append, List.foldl_cons, ih]

theorem trainTokens_eq_foldl (n : Nat) (σ : NGramStore) (T : List TokenID) :
    trainTokens n σ T = (incFlat n T).foldl NGramStore.increment σ := by
  unfold trainTokens incFlat
  rw [foldl_flatMap]

theorem trainTokens_getCount (n : Nat) (σ : NGramStore) (T : List TokenID) (g : List TokenID) :
    (trainTokens n σ T).getCount g = σ.getCount g + List.count g (incFlat n T) := by
  rw [trainTokens_eq_foldl, foldl_increment_getCount]

theorem count_flatMap {γ : Type} (f : γ → List (List TokenID)) (l : List γ) (g : List TokenID) :
    List.count g (l.flatMap f) = (l.map fun c => List.count g (f c)).sum := by
  induction l with
  | nil => rfl
  | cons c l ih =>
      rw [List.flatMap_cons, List.count_append, List.map_cons, List.sum_cons, ih]

theorem window_length (T : List TokenID) (i k : Nat) (hk : k ≤ i + 1) (hi : i < T.length) :
    (window T i k).length = k := by
  unfold window
  rw [List.length_take, List.length_drop]
  omega

theorem count_filterMap_list {γ : Type} (f : γ → Option (List TokenID)) (l : List γ)
    (b : List TokenID) :
    List.count b (l.filterMap f) = List.countP (fun a => f a == some b) l := by
  induction l with
  | nil => rfl
  | cons a l ih =>
      rw [List.filterMap_cons, List.countP_cons]
      cases hf : f a with
      | none => simp [hf, ih]
      | some v =>
          rw [List.count_cons, ih]
          by_cases hv : v = b <;> simp [hf, hv]

theorem countP_range_unique (p : Nat → Bool) (j0 : Nat) (h : ∀ j, p j = true → j = j0) :
    ∀ n : Nat, List.countP p (List.range n) = if j0 < n ∧ p j0 = true then 1 else 0 := by
  intro n
  induction n with
  | zero => simp
  | succ n ih =>
      rw [List.range_succ, List.countP_append, ih, List.countP_cons, List.countP_nil]
      by_cases hp : p n = true
      · have hj : n = j0 := h n hp
        subst hj
        simp [hp]
      · simp [hp]
        by_cases hj : p j0 = true
        · have hne : j0 ≠ n := fun hh => hp (hh ▸ hj)
          by_cases hlt : j0 < n
          · simp [hlt, hj, Nat.lt_succ_of_lt hlt]
          · have : ¬ j0 < n + 1 := by omega
            simp [hlt, this]
        · simp [hj]

theorem posIncs_count (n : Nat) (T : List TokenID) (i : Nat) (g : List TokenID)
    (hi : i < T.length) :
    List.count g (posIncs n T i) =
      if 1 ≤ g.length ∧ g.length ≤ n ∧ g.length ≤ i + 1 ∧ window T i g.length = g
      then 1 else 0 := by
  unfold posIncs
  rw [count_filterMap_list]
  have hkey : ∀ j, ((if j ≤ i then some (window T i (j + 1)) else none) == some g) = true →
      j = g.length - 1 := by
    intro j hj
    by_cases hji : j ≤ i
    · rw [if_pos hji] at hj
      have hw : window T i (j + 1) = g := by simpa using hj
      have hlen := window_length T i (j + 1) (by omega) hi
      rw [hw] at hlen
      omega
    · rw [if_neg hji] at hj
      simp at hj
  rw [countP_range_unique _ (g.length - 1) hkey]
  beta_reduce
  by_cases hB : 1 ≤ g.length ∧ g.length ≤ n ∧ g.length ≤ i + 1 ∧ window T i g.length = g
  · obtain ⟨h1, h2, h3, h4⟩ := hB
    have hp : ((if g.length - 1 ≤ i then some (window T i (g.length - 1 + 1)) else none) ==
        some g) = true := by
      rw [if_pos (show g.length - 1 ≤ i by omega),
        show g.length - 1 + 1 = g.length from by omega, h4]
      simp
    rw [if_pos (show _ ∧ _ from ⟨show g.length - 1 < n by omega, hp⟩),
      if_pos (show _ ∧ _ ∧ _ ∧ _ from ⟨h1, h2, h3, h4⟩)]
  · rw [if_neg hB]
    rw [if_neg]
    rintro ⟨hn, hp⟩
    by_cases hji : g.length - 1 ≤ i
    · rw [if_pos hji] at hp
      have hw : window T i (g.length - 1 + 1) = g := by simpa using hp
      have hglen : 1 ≤ g.length := by
        have hlen := window_length T i (g.length - 1 + 1) (by omega) hi
        rw [hw] at hlen
        omega
      rw [show g.length - 1 + 1 = g.length from by omega] at hw
      exact hB ⟨hglen, by omega, by omega, hw⟩
    · rw [if_neg hji] at hp
      simp at hp

theorem window_dropLast (T : List TokenID) (i m : Nat) (hm : 1 ≤ m) (hmi : m ≤ i + 2)
    (hi : i + 1 < T.length) :
    (window T (i + 1) m).dropLast = window T i (m - 1) := by
  unfold window
  have hidx : i + 1 + 1 - m = i + 1 - (m - 1) := by omega
  rw [hidx, List.dropLast_eq_take, List.length_take, List.length_drop, List.take_take]
  congr 1
  omega

theorem posIncs_count_shift (n : Nat) (T : List TokenID) (i : Nat) (g : List TokenID)
    (h2 : 2 ≤ g.length) (hi : i + 1 < T.length) :
    List.count g (posIncs n T (i + 1)) ≤ List.count g.dropLast (posIncs n T i) := by
  rw [posIncs_count n T (i + 1) g hi, posIncs_count n T i g.dropLast (by omega)]
  by_cases hc : 1 ≤ g.length ∧ g.length ≤ n ∧ g.length ≤ i + 1 + 1 ∧
      window T (i + 1) g.length = g
  · obtain ⟨h1, hn, hii, hw⟩ := hc
    have hwd : window T i (g.length - 1) = g.dropLast := by
      have h' := window_dropLast T i g.length h1 (by omega) hi
      rw [hw] at h'
      exact h'.symm
    have hdl : g.dropLast.length = g.length - 1 := List.length_dropLast g
    rw [if_pos (show _ ∧ _ from ⟨h1, hn, hii, hw⟩),
      if_pos (show _ ∧ _ ∧ _ ∧ _ from ⟨by omega, by omega, by omega, by rw [hdl, hwd]⟩)]
  · rw [if_neg hc]
    exact Nat.zero_le _

theorem listSum_range_eq (f : Nat → Nat) :
    ∀ m : Nat, ((List.range m).map f).sum = ∑ j ∈ Finset.range m, f j := by
  intro m
  induction m with
  | zero => rfl
  | succ m ih =>
      rw [List.range_succ, List.map_append, List.sum_append, Finset.sum_range_succ, ih]
      simp

theorem count_incFlat_mono (n : Nat) (T : List TokenID) (g : List TokenID)
    (h2 : 2 ≤ g.length) :
    List.count g (incFlat n T) ≤ List.count g.dropLast (incFlat n T) := by
  unfold incFlat
  rw [count_flatMap, count_flatMap, listSum_range_eq, listSum_range_eq]
  cases hT : T.length with
  | zero => simp
  | succ M =>
      rw [Finset.sum_range_succ' (fun j => List.count g (posIncs n T j)) M]
      beta_reduce
      have h0 : List.count g (posIncs n T 0) = 0 := by
        rw [posIncs_count n T 0 g (by omega)]
        rw [if_neg]
        rintro ⟨-, -, hle, -⟩
        omega
      rw [h0, Nat.add_zero]
      calc ∑ i ∈ Finset.range M, List.count g (posIncs n T (i + 1))
          ≤ ∑ i ∈ Finset.range M, List.count g.dropLast (posIncs n T i) := by
            refine Finset.sum_le_sum ?_
            intro i hmem
            rw [Finset.mem_range] at hmem
            exact posIncs_count_shift n T i g h2 (by omega)
        _ ≤ ∑ i ∈ Finset.range (M + 1), List.count g.dropLast (posIncs n T i) := by
            rw [Finset.sum_range_succ]
            exact Nat.le_add_right _ _

theorem storeMono_empty : StoreMono emptyNGramStore := by
  intro g h2
  exact Nat.le_refl 0

theorem storeMono_trainTokens (n : Nat) (σ : NGramStore) (T : List TokenID)
    (h : StoreMono σ) : StoreMono (trainTokens n σ T) := by
  intro g h2
  rw [trainTokens_getCount, trainTokens_getCount]
  exact Nat.add_le_add (h g h2) (count_incFlat_mono n T g h2)

theorem storeMono_train (m : SBModel) (text : String) (h : StoreMono m.store) :
    StoreMono (m.train text).store := by
  unfold SBModel.train
  exact storeMono_trainTokens m.n m.store _ h

theorem storeMono_trainedFrom (texts : List String) :
    ∀ m : SBModel, StoreMono m.store → StoreMono ((texts.foldl SBModel.train m).store) := by
  induction texts with
  | nil => intro m h; exact h
  | cons t rest ih =>
      intro m h
      rw [List.foldl_cons]
      exact ih _ (storeMono_train m t h)

theorem storeMono_trained (n : Nat) (texts : List String) :
    StoreMono ((texts.foldl SBModel.train (freshSBModel n)).store) :=
  storeMono_trainedFrom texts (freshSBModel n) storeMono_empty

/-- Claim C10: after any sequence of train calls on a fresh Stupid Backoff
model, every stored n-gram of length ≥ 2 with positive count has a context
prefix (the n-gram without its last token) with a count at least as large
and in particular positive, so the zero-denominator guard in `getScore` can
never fire for an observed n-gram. -/
theorem c10_context_count_ge (n : Nat) (texts : List String) (g : List TokenID)
    (h2 : 2 ≤ g.length)
    (hpos : 0 < (texts.foldl SBModel.train (freshSBModel n)).store.getCount g) :
    (texts.foldl SBModel.train (freshSBModel n)).store.getCount g ≤
      (texts.foldl SBModel.train (freshSBModel n)).store.getCount g.dropLast ∧
    0 < (texts.foldl SBModel.train (freshSBModel n)).store.getCount g.dropLast := by
  have h := storeMono_trained n texts g h2
  exact ⟨h, Nat.lt_of_lt_of_le hpos h⟩

/-- Witness for claim C10: training the order-2 model on "aa aa" gives the
bigram [3, 3] count 1 > 0 and its context [3] count 2 ≥ 1. -/
theorem c10_context_count_ge_witness :
    (2 ≤ ([3, 3] : List TokenID).length ∧
      0 < (["aa aa"].foldl SBModel.train (freshSBModel 2)).store.getCount [3, 3]) ∧
    ((["aa aa"].foldl SBModel.train (freshSBModel 2)).store.getCount [3, 3] ≤
      (["aa aa"].foldl SBModel.train (freshSBModel 2)).store.getCount
        ([3, 3] : List TokenID).dropLast ∧
      0 < (["aa aa"].foldl SBModel.train (freshSBModel 2)).store.getCount
        ([3, 3] : List TokenID).dropLast) :=
  ⟨⟨by decide, by decide⟩, c10_context_count_ge 2 ["aa aa"] [3, 3] (by decide) (by decide)⟩

/-- Claim C2: on every trained Stupid Backoff model, the score of a candidate
is: with empty context, count(unigram)/totalTokens (0 when nothing observed);
with nonempty context, the plain MLE ratio count(context+candidate) /
count(context) whenever the n-gram was observed (no ALPHA discount on that
path), and ALPHA times the score with the oldest context token dropped
otherwise. -/
theorem c2_stupid_backoff_score (n : Nat) (texts : List String) (candidate : TokenID)
    (ctx : List TokenID) (σ : NGramStore)
    (hσ : σ = (texts.foldl SBModel.train (freshSBModel n)).store) :
    (σ.getTotalTokens = 0 → getScore σ candidate [] = 0) ∧
    (0 < σ.getTotalTokens →
      getScore σ candidate [] = (σ.getCount [candidate] : ℚ) / (σ.getTotalTokens : ℚ)) ∧
    (ctx ≠ [] → 0 < σ.getCount (ctx ++ [candidate]) →
      getScore σ candidate ctx =
        (σ.getCount (ctx ++ [candidate]) : ℚ) / (σ.getCount ctx : ℚ)) ∧
    (ctx ≠ [] → σ.getCount (ctx ++ [candidate]) = 0 →
      getScore σ candidate ctx = ALPHA * getScore σ candidate ctx.tail) := by
  refine ⟨?_, ?_, ?_, ?_⟩
  · intro h0
    rw [getScore, if_neg (by omega)]
  · intro hpos
    rw [getScore, if_pos hpos]
  · intro hctx hpos
    obtain ⟨c, rest, rfl⟩ : ∃ c rest, ctx = c :: rest := by
      cases ctx with
      | nil => exact absurd rfl hctx
      | cons c rest => exact ⟨c, rest, rfl⟩
    have hmono : StoreMono σ := hσ ▸ storeMono_trained n texts
    have hctxpos : 0 < σ.getCount (c :: rest) := by
      have h := hmono ((c :: rest) ++ [candidate]) (by simp)
      rw [List.dropLast_concat] at h
      omega
    rw [getScore, if_pos hpos, if_pos hctxpos]
  · intro hctx hzero
    obtain ⟨c, rest, rfl⟩ : ∃ c rest, ctx = c :: rest := by
      cases ctx with
      | nil => exact absurd rfl hctx
      | cons c rest => exact ⟨c, rest, rfl⟩
    rw [getScore, if_neg (by omega)]
    rfl

/-- Witness for claim C2 at a concrete trained model: order 2, trained on
"aa aa"; the observed bigram [3, 3] is scored as the plain ratio 1/2 and the
unobserved candidate 4 in context [3] backs off with the 0.4 discount. -/
theorem c2_stupid_backoff_score_witness :
    (([3] : List TokenID) ≠ [] ∧
      0 < (["aa aa"].foldl SBModel.train (freshSBModel 2)).store.getCount [3, 3]) ∧
    getScore (["aa aa"].foldl SBModel.train (freshSBModel 2)).store 3 [3] =
      (((["aa aa"].foldl SBModel.train (freshSBModel 2)).store.getCount [3, 3] : ℚ) /
        ((["aa aa"].foldl SBModel.train (freshSBModel 2)).store.getCount [3] : ℚ)) :=
  ⟨⟨by decide, by decide⟩,
    (c2_stupid_backoff_score 2 ["aa aa"] 3 [3] _ rfl).2.2.1 (by decide) (by decide)⟩

theorem processLexemes_word_skip (cfg : TokenizerConfig) (st : TokState) (w : String)
    (rest : List Lexeme) (acc : List TokenID) (flag : Bool)
    (h : w.length < cfg.minWordLength) :
    processLexemes cfg st (Lexeme.word w :: rest) acc flag =
      processLexemes cfg st rest acc flag := by
  simp [processLexemes, h]

theorem processLexemes_word_keep (cfg : TokenizerConfig) (st : TokState) (w : String)
    (rest : List Lexeme) (acc : List TokenID) (flag : Bool)
    (h : ¬ w.length < cfg.minWordLength) :
    processLexemes cfg st (Lexeme.word w :: rest) acc flag =
      processLexemes cfg (registerToken st w).1 rest ((registerToken st w).2 :: acc) false := by
  simp [processLexemes, h]

theorem processLexemes_punct_start (cfg : TokenizerConfig) (st : TokState)
    (rest : List Lexeme) (acc : List TokenID) :
    processLexemes cfg st (Lexeme.punct :: rest) acc true =
      processLexemes cfg st rest acc true := by
  simp [processLexemes]

theorem processLexemes_punct_emit (cfg : TokenizerConfig) (st : TokState)
    (rest : List Lexeme) (acc : List TokenID) :
    processLexemes cfg st (Lexeme.punct :: rest) acc false =
      processLexemes cfg st rest (BOS_ID :: EOS_ID :: acc) true := by
  simp [processLexemes]

theorem lookupStr_append_left (l l' : List (String × Nat)) (v : String) (id : Nat)
    (h : lookupStr l v = some id) : lookupStr (l ++ l') v = some id := by
  induction l with
  | nil => simp [lookupStr] at h
  | cons hd rest ih =>
      obtain ⟨k, x⟩ := hd
      rw [List.cons_append]
      by_cases hk : k = v
      · rw [lookupStr, if_pos hk] at h
        rw [lookupStr, if_pos hk]
        exact h
      · rw [lookupStr, if_neg hk] at h
        rw [lookupStr, if_neg hk]
        exact ih h

theorem lookupStr_append_self (l : List (String × Nat)) (w : String) (id : Nat)
    (h : lookupStr l w = none) : lookupStr (l ++ [(w, id)]) w = some id := by
  induction l with
  | nil => simp [lookupStr]
  | cons hd rest ih =>
      obtain ⟨k, x⟩ := hd
      rw [List.cons_append]
      by_cases hk : k = w
      · rw [lookupStr, if_pos hk] at h
        exact absurd h (by simp)
      · rw [lookupStr, if_neg hk] at h
        rw [lookupStr, if_neg hk]
        exact ih h

theorem registerToken_lookup_self (s : TokState) (w : String) :
    lookupStr (registerToken s w).1.wordToId w = some (registerToken s w).2 := by
  unfold registerToken
  cases hl : lookupStr s.wordToId w with
  | some id => simpa [hl]
  | none =>
      simp only [hl]
      exact lookupStr_append_self _ _ _ hl

theorem registerToken_mono (s : TokState) (w v : String) (id : Nat)
    (h : lookupStr s.wordToId v = some id) :
    lookupStr (registerToken s w).1.wordToId v = some id := by
  unfold registerToken
  cases hl : lookupStr s.wordToId w with
  | some i => simpa [hl]
  | none =>
      simp only [hl]
      exact lookupStr_append_left _ _ _ _ h

theorem processLexemes_mono (cfg : TokenizerConfig) (lexs : List Lexeme) :
    ∀ (st : TokState) (acc : List TokenID) (flag : Bool) (v : String) (id : Nat),
      lookupStr st.wordToId v = some id →
      lookupStr (processLexemes cfg st lexs acc flag).1.wordToId v = some id := by
  induction lexs with
  | nil =>
      intro st acc flag v id h
      simpa [processLexemes]
  | cons lx rest ih =>
      intro st acc flag v id h
      cases lx with
      | word w =>
          by_cases hlen : w.length < cfg.minWordLength
          · rw [processLexemes_word_skip cfg st w rest acc flag hlen]
            exact ih st acc flag v id h
          · rw [processLexemes_word_keep cfg st w rest acc flag hlen]
            exact ih _ _ _ v id (registerToken_mono st w v id h)
      | punct =>
          cases flag with
          | true =>
              rw [processLexemes_punct_start]
              exact ih st acc true v id h
          | false =>
              rw [processLexemes_punct_emit]
              exact ih st _ true v id h

theorem processLexemes_idem (cfg : TokenizerConfig) (lexs : List Lexeme) :
    ∀ (st : TokState) (acc : List TokenID) (flag : Bool),
      processLexemes cfg (processLexemes cfg st lexs acc flag).1 lexs acc flag =
        processLexemes cfg st lexs acc flag := by
  induction lexs with
  | nil => intro st acc flag; rfl
  | cons lx rest ih =>
      intro st acc flag
      cases lx with
      | word w =>
          by_cases hlen : w.length < cfg.minWordLength
          · rw [processLexemes_word_skip cfg st w rest acc flag hlen,
              processLexemes_word_skip _ _ _ _ _ _ hlen]
            exact ih st acc flag
          · rw [processLexemes_word_keep cfg st w rest acc flag hlen]
            rw [processLexemes_word_keep _ _ _ _ _ _ hlen]
            have hfix : ∀ (Y : TokState) (i : TokenID), lookupStr Y.wordToId w = some i →
                registerToken Y w = (Y, i) := by
              intro Y i hY
              unfold registerToken
              rw [hY]
            have hlook := processLexemes_mono cfg rest (registerToken st w).1
              ((registerToken st w).2 :: acc) false w (registerToken st w).2
              (registerToken_lookup_self st w)
            rw [hfix _ _ hlook]
            exact ih (registerToken st w).1 ((registerToken st w).2 :: acc) false
      | punct =>
          cases flag with
          | true =>
              rw [processLexemes_punct_start, processLexemes_punct_start]
              exact ih st acc true
          | false =>
              rw [processLexemes_punct_emit, processLexemes_punct_emit]
              exact ih st (BOS_ID :: EOS_ID :: acc) true

theorem tokenize_idem (cfg : TokenizerConfig) (st : TokState) (text : String) :
    tokenize cfg (tokenize cfg st text).1 text = tokenize cfg st text := by
  unfold tokenize
  simp only [processLexemes_idem]

/-- Claim C9: training a fresh Stupid Backoff model twice with identical
input exactly doubles every stored n-gram count relative to training once. -/
theorem c9_train_additivity (n : Nat) (text : String) (g : List TokenID) :
    (((freshSBModel n).train text).train text).store.getCount g =
      2 * ((freshSBModel n).train text).store.getCount g := by
  unfold SBModel.train freshSBModel
  simp only []
  have hidem := tokenize_idem defaultTokCfg tokNew text
  rw [hidem]
  rw [trainTokens_getCount, trainTokens_getCount]
  have hempty : emptyNGramStore.getCount g = 0 := rfl
  rw [hempty]
  omega

theorem lookupStr_append_cases (l : List (String × Nat)) (w : String) (id : Nat) (v : String)
    (j : Nat) (h : lookupStr (l ++ [(w, id)]) v = some j) :
    lookupStr l v = some j ∨ (v = w ∧ j = id ∧ lookupStr l v = none) := by
  induction l with
  | nil =>
      simp only [List.nil_append, lookupStr] at h
      by_cases hw : w = v
      · rw [if_pos hw] at h
        exact Or.inr ⟨hw.symm, (Option.some.inj h).symm, rfl⟩
      · rw [if_neg hw] at h
        exact absurd h (by simp)
  | cons hd rest ih =>
      obtain ⟨k, x⟩ := hd
      rw [List.cons_append, lookupStr] at h
      by_cases hk : k = v
      · rw [if_pos hk] at h
        left
        rw [lookupStr, if_pos hk]
        exact h
      · rw [if_neg hk] at h
        rcases ih h with h' | ⟨h1, h2, h3⟩
        · left
          rw [lookupStr, if_neg hk]
          exact h'
        · right
          refine ⟨h1, h2, ?_⟩
          rw [lookupStr, if_neg hk]
          exact h3

theorem registerToken_wf (s : TokState) (w : String) (hwf : WFTok s) :
    WFTok (registerToken s w).1 := by
  obtain ⟨hS, hE, hSu, hEu, hlen, hbound⟩ := hwf
  unfold registerToken
  cases hl : lookupStr s.wordToId w with
  | some id => exact ⟨hS, hE, hSu, hEu, hlen, hbound⟩
  | none =>
      simp only []
      refine ⟨lookupStr_append_left _ _ _ _ hS, lookupStr_append_left _ _ _ _ hE,
        ?_, ?_, ?_, ?_⟩
      · intro v hv
        rcases lookupStr_append_cases _ _ _ _ _ hv with h' | ⟨-, h2, -⟩
        · exact hSu v h'
        · unfold BOS_ID at h2
          omega
      · intro v hv
        rcases lookupStr_append_cases _ _ _ _ _ hv with h' | ⟨-, h2, -⟩
        · exact hEu v h'
        · unfold EOS_ID at h2
          omega
      · rw [List.length_append]
        simp
        omega
      · intro v i hv
        rw [List.length_append, List.length_singleton]
        rcases lookupStr_append_cases _ _ _ _ _ hv with h' | ⟨-, h2, -⟩
        · have := hbound v i h'
          omega
        · omega

theorem wordShaped_ne_sentinels (w : String) (h : wordShaped w) :
    w ≠ "<S>" ∧ w ≠ "</S>" := by
  constructor
  · intro hw
    subst hw
    have := h.2 '<' (by decide)
    exact absurd this (by decide)
  · intro hw
    subst hw
    have := h.2 '<' (by decide)
    exact absurd this (by decide)

theorem registerToken_id_not_sentinel (s : TokState) (w : String) (hwf : WFTok s)
    (hw : wordShaped w) :
    (registerToken s w).2 ≠ BOS_ID ∧ (registerToken s w).2 ≠ EOS_ID := by
  obtain ⟨hS, hE, hSu, hEu, hlen, hbound⟩ := hwf
  unfold registerToken
  cases hl : lookupStr s.wordToId w with
  | some id =>
      simp only []
      constructor
      · intro hid
        subst hid
        exact absurd (hSu w hl) (wordShaped_ne_sentinels w hw).1
      · intro hid
        subst hid
        exact absurd (hEu w hl) (wordShaped_ne_sentinels w hw).2
  | none =>
      constructor
      · intro hid
        have h1 : s.idToWord.length = BOS_ID := hid
        unfold BOS_ID at h1
        omega
      · intro hid
        have h1 : s.idToWord.length = EOS_ID := hid
        unfold EOS_ID at h1
        omega

theorem mem_trimTrailingHyphens (l : List Char) (a : Char) (h : a ∈ trimTrailingHyphens l) :
    a ∈ l := by
  unfold trimTrailingHyphens at h
  rw [List.mem_reverse] at h
  have := List.Sublist.mem h (List.dropWhile_sublist _)
  rwa [List.mem_reverse] at this

theorem trimTrailingHyphens_ne_nil (l : List Char) (c : Char) (hc : c ∈ l) (hne : c ≠ '-') :
    trimTrailingHyphens l ≠ [] := by
  unfold trimTrailingHyphens
  intro h
  rw [List.reverse_eq_nil_iff, List.dropWhile_eq_nil_iff] at h
  have := h c (List.mem_reverse.mpr hc)
  simp at this
  exact hne this

theorem lexCharsFuel_words_shaped :
    ∀ (fuel : Nat) (cs : List Char) (w : String),
      Lexeme.word w ∈ lexCharsFuel fuel cs → wordShaped w := by
  intro fuel
  induction fuel with
  | zero =>
      intro cs w h
      simp [lexCharsFuel] at h
  | succ fuel ih =>
      intro cs w h
      cases cs with
      | nil => simp [lexCharsFuel] at h
      | cons c cs =>
          rw [lexCharsFuel] at h
          by_cases h1 : isLetterChar c = true
          · rw [if_pos h1] at h
            rcases List.mem_cons.mp h with heq | hmem
            · have hw : w = String.mk (trimTrailingHyphens
                  ((c :: cs).takeWhile isLetterOrHyphen)) := by
                injection heq
              subst hw
              have hrun : (c :: cs).takeWhile isLetterOrHyphen =
                  c :: cs.takeWhile isLetterOrHyphen := by
                rw [List.takeWhile_cons, if_pos (by simp [isLetterOrHyphen, h1])]
              constructor
              · show trimTrailingHyphens ((c :: cs).takeWhile isLetterOrHyphen) ≠ []
                refine trimTrailingHyphens_ne_nil _ c ?_ ?_
                · rw [hrun]
                  exact List.mem_cons_self _ _
                · intro hc
                  rw [hc] at h1
                  exact absurd h1 (by decide)
              · intro a ha
                have ha' := mem_trimTrailingHyphens _ _ ha
                have := List.mem_takeWhile_imp ha'
                simp [this]
            · exact ih _ _ hmem
          · rw [if_neg h1] at h
            by_cases h2 : isDigitChar c = true
            · rw [if_pos h2] at h
              rcases List.mem_cons.mp h with heq | hmem
              · have hw : w = String.mk ((c :: cs).takeWhile isDigitChar) := by
                  injection heq
                subst hw
                have hrun : (c :: cs).takeWhile isDigitChar =
                    c :: cs.takeWhile isDigitChar := by
                  rw [List.takeWhile_cons, if_pos h2]
                constructor
                · show ((c :: cs).takeWhile isDigitChar) ≠ []
                  rw [hrun]
                  simp
                · intro a ha
                  have := List.mem_takeWhile_imp ha
                  simp [this]
              · exact ih _ _ hmem
            · rw [if_neg h2] at h
              by_cases h3 : isPunctChar c = true
              · rw [if_pos h3] at h
                rcases List.mem_cons.mp h with heq | hmem
                · exact absurd heq (by simp)
                · exact ih _ _ hmem
              · rw [if_neg h3] at h
                exact ih _ _ h

theorem noBareEOS_cons (z : TokenID) (acc : List TokenID) (hne : acc ≠ [])
    (hhead : acc.head? ≠ some EOS_ID) (h : noBareEOS acc) : noBareEOS (z :: acc) := by
  cases acc with
  | nil => exact absurd rfl hne
  | cons a t =>
      refine ⟨?_, h⟩
      intro ha
      exact absurd (by rw [List.head?_cons, ha]) hhead

theorem bosPaired_cons (z : TokenID) (acc : List TokenID) (hne : acc ≠ [])
    (hz : z ≠ BOS_ID) (h : bosPaired acc) : bosPaired (z :: acc) := by
  cases acc with
  | nil => exact absurd rfl hne
  | cons a t => exact ⟨fun hbos => absurd hbos hz, h⟩

theorem processLexemes_inv (cfg : TokenizerConfig) (lexs : List Lexeme) :
    ∀ (st : TokState) (acc : List TokenID) (flag : Bool),
      WFTok st → (∀ w, Lexeme.word w ∈ lexs → wordShaped w) → TokInv acc flag →
      WFTok (processLexemes cfg st lexs acc flag).1 ∧
      TokInv (processLexemes cfg st lexs acc flag).2.1
        (processLexemes cfg st lexs acc flag).2.2 := by
  induction lexs with
  | nil =>
      intro st acc flag hwf hsh hinv
      exact ⟨hwf, hinv⟩
  | cons lx rest ih =>
      intro st acc flag hwf hsh hinv
      cases lx with
      | word w =>
          by_cases hlen : w.length < cfg.minWordLength
          · rw [processLexemes_word_skip cfg st w rest acc flag hlen]
            exact ih st acc flag hwf (fun v hv => hsh v (List.mem_cons_of_mem _ hv)) hinv
          · rw [processLexemes_word_keep cfg st w rest acc flag hlen]
            have hshape : wordShaped w := hsh w (List.mem_cons_self _ _)
            have hid := registerToken_id_not_sentinel st w hwf hshape
            obtain ⟨hne, hflag, hhead, hnb, hbp⟩ := hinv
            refine ih _ _ _ (registerToken_wf st w hwf)
              (fun v hv => hsh v (List.mem_cons_of_mem _ hv)) ⟨by simp, ?_, ?_, ?_, ?_⟩
            · constructor
              · intro hfalse
                exact absurd hfalse (by simp)
              · intro hh
                rw [List.head?_cons] at hh
                exact absurd (Option.some.inj hh) hid.1
            · rw [List.head?_cons]
              intro hh
              exact absurd (Option.some.inj hh) hid.2
            · exact noBareEOS_cons _ _ hne hhead hnb
            · exact bosPaired_cons _ _ hne hid.1 hbp
      | punct =>
          obtain ⟨hne, hflag, hhead, hnb, hbp⟩ := hinv
          cases flag with
          | true =>
              rw [processLexemes_punct_start]
              exact ih st acc true hwf (fun v hv => hsh v (List.mem_cons_of_mem _ hv))
                ⟨hne, hflag, hhead, hnb, hbp⟩
          | false =>
              rw [processLexemes_punct_emit]
              refine ih st _ true hwf (fun v hv => hsh v (List.mem_cons_of_mem _ hv))
                ⟨by simp, ?_, ?_, ?_, ?_⟩
              · simp
              · rw [List.head?_cons]
                intro hh
                have := Option.some.inj hh
                exact absurd this (by decide)
              · refine ⟨fun _ => rfl, ?_⟩
                exact noBareEOS_cons _ _ hne hhead hnb
              · refine ⟨fun _ => rfl, ?_⟩
                refine bosPaired_cons _ _ hne (by decide) hbp

theorem fixup_props (acc : List TokenID) (flag : Bool) (h : TokInv acc flag) :
    (if acc.head? = some BOS_ID then acc.tail
     else if acc.head? = some EOS_ID then acc
     else EOS_ID :: acc).head? ≠ some BOS_ID ∧
    noBareEOS (if acc.head? = some BOS_ID then acc.tail
     else if acc.head? = some EOS_ID then acc
     else EOS_ID :: acc) := by
  obtain ⟨hne, hflag, hhead, hnb, hbp⟩ := h
  by_cases hB : acc.head? = some BOS_ID
  · rw [if_pos hB]
    cases acc with
    | nil => simp at hB
    | cons a t =>
        rw [List.head?_cons] at hB
        have ha : a = BOS_ID := Option.some.inj hB
        subst ha
        simp only [List.tail_cons]
        cases t with
        | nil => exact ⟨by simp, trivial⟩
        | cons b t' =>
            have hb : b = EOS_ID := hbp.1 rfl
            subst hb
            refine ⟨?_, hnb.2⟩
            rw [List.head?_cons]
            intro hh
            exact absurd (Option.some.inj hh) (by decide)
  · rw [if_neg hB]
    by_cases hE : acc.head? = some EOS_ID
    · exact absurd hE hhead
    · rw [if_neg hE]
      refine ⟨?_, noBareEOS_cons _ _ hne hE hnb⟩
      rw [List.head?_cons]
      intro hh
      exact absurd (Option.some.inj hh) (by decide)

theorem noBareEOS_reverse (l : List TokenID) :
    noBareEOS l →
    ∀ i, i + 1 < l.length → l.reverse[i]? = some EOS_ID →
      l.reverse[i + 1]? = some BOS_ID := by
  induction l with
  | nil =>
      intro h i hi
      simp at hi
  | cons x t ih =>
      intro h i hi hEOS
      rw [List.reverse_cons] at hEOS ⊢
      have hlen : i + 1 ≤ t.length := by
        rw [List.length_cons] at hi
        omega
      by_cases hcase : i + 1 < t.length
      · rw [List.getElem?_append_left (by rw [List.length_reverse]; omega)] at hEOS
        rw [List.getElem?_append_left (by rw [List.length_reverse]; omega)]
        have ht : noBareEOS t := by
          cases t with
          | nil => trivial
          | cons y t' => exact h.2
        exact ih ht i hcase hEOS
      · have hieq : i + 1 = t.length := by omega
        cases t with
        | nil =>
            rw [List.length_nil] at hieq
            omega
        | cons y t' =>
            rw [List.getElem?_append_left
              (by rw [List.length_reverse]; rw [List.length_cons] at hieq ⊢; omega)] at hEOS
            have hrev : (y :: t').reverse[i]? = some y := by
              have h1 : (y :: t').reverse.getLast? = some y := by
                rw [List.getLast?_reverse]
                rfl
              rw [List.getLast?_eq_getElem?, List.length_reverse] at h1
              have hieq' : i = (y :: t').length - 1 := by omega
              rw [hieq']
              exact h1
            rw [hrev] at hEOS
            have hy : y = EOS_ID := Option.some.inj hEOS
            have hx : x = BOS_ID := h.1 hy
            rw [List.getElem?_append_right (by rw [List.length_reverse]; omega)]
            rw [List.length_reverse, hieq]
            simp [hx]

theorem lookupStr_mem (l : List (String × Nat)) (w : String) (v : Nat)
    (h : lookupStr l w = some v) : (w, v) ∈ l := by
  induction l with
  | nil => simp [lookupStr] at h
  | cons hd rest ih =>
      obtain ⟨k, x⟩ := hd
      rw [lookupStr] at h
      by_cases hk : k = w
      · rw [if_pos hk] at h
        have hx : x = v := Option.some.inj h
        subst hx hk
        exact List.mem_cons_self _ _
      · rw [if_neg hk] at h
        exact List.mem_cons_of_mem _ (ih h)

theorem wfTok_tokNew : WFTok tokNew := by
  have htok : tokNew =
      ⟨[("<UNK>", 0), ("<S>", 1), ("</S>", 2)], ["<UNK>", "<S>", "</S>"]⟩ := rfl
  rw [htok]
  refine ⟨by decide, by decide, ?_, ?_, by decide, ?_⟩
  · intro w hw
    have hm := lookupStr_mem _ _ _ hw
    rcases List.mem_cons.mp hm with h1 | hm
    · have h2 : BOS_ID = 0 := congrArg Prod.snd h1
      exact absurd h2 (by decide)
    rcases List.mem_cons.mp hm with h1 | hm
    · have h2 : w = "<S>" := congrArg Prod.fst h1
      exact h2
    rcases List.mem_cons.mp hm with h1 | hm
    · have h2 : BOS_ID = 2 := congrArg Prod.snd h1
      exact absurd h2 (by decide)
    · simp at hm
  · intro w hw
    have hm := lookupStr_mem _ _ _ hw
    rcases List.mem_cons.mp hm with h1 | hm
    · have h2 : EOS_ID = 0 := congrArg Prod.snd h1
      exact absurd h2 (by decide)
    rcases List.mem_cons.mp hm with h1 | hm
    · have h2 : EOS_ID = 1 := congrArg Prod.snd h1
      exact absurd h2 (by decide)
    rcases List.mem_cons.mp hm with h1 | hm
    · have h2 : w = "</S>" := congrArg Prod.fst h1
      exact h2
    · simp at hm
  · intro w id hw
    have hm := lookupStr_mem _ _ _ hw
    rcases List.mem_cons.mp hm with h1 | hm
    · have h2 : id = 0 := congrArg Prod.snd h1
      subst h2
      decide
    rcases List.mem_cons.mp hm with h1 | hm
    · have h2 : id = 1 := congrArg Prod.snd h1
      subst h2
      decide
    rcases List.mem_cons.mp hm with h1 | hm
    · have h2 : id = 2 := congrArg Prod.snd h1
      subst h2
      decide
    · simp at hm

theorem tokenize_empty (cfg : TokenizerConfig) (st : TokState) :
    (tokenize cfg st "").2 = [] := by
  obtain ⟨yo, minl⟩ := cfg
  cases yo <;> rfl

theorem boundary_of_inv (acc : List TokenID) (flag : Bool) (hinv : TokInv acc flag) :
    ((if acc.head? = some BOS_ID then acc.tail
      else if acc.head? = some EOS_ID then acc
      else EOS_ID :: acc).reverse.getLast? ≠ some BOS_ID) ∧
    (∀ i, i + 1 < (if acc.head? = some BOS_ID then acc.tail
      else if acc.head? = some EOS_ID then acc
      else EOS_ID :: acc).reverse.length →
      (if acc.head? = some BOS_ID then acc.tail
       else if acc.head? = some EOS_ID then acc
       else EOS_ID :: acc).reverse[i]? = some EOS_ID →
      (if acc.head? = some BOS_ID then acc.tail
       else if acc.head? = some EOS_ID then acc
       else EOS_ID :: acc).reverse[i + 1]? = some BOS_ID) := by
  have hfix := fixup_props acc flag hinv
  revert hfix
  generalize (if acc.head? = some BOS_ID then acc.tail
    else if acc.head? = some EOS_ID then acc
    else EOS_ID :: acc) = fixed
  intro hfix
  constructor
  · rw [List.getLast?_reverse]
    exact hfix.1
  · intro i hi hEOS
    rw [List.length_reverse] at hi
    exact noBareEOS_reverse fixed hfix.2 i hi hEOS

/-- Claim C5: for every input string and well-formed tokenizer state, the
token sequence returned by `tokenize` never ends with a `<S>` marker; every
`</S>` marker is immediately followed by a `<S>` except possibly the final
token; and empty input yields the empty sequence (within the claimed "at
most [BOS, EOS] or empty"). -/
theorem c5_tokenizer_boundary (cfg : TokenizerConfig) (st : TokState) (text : String)
    (hwf : WFTok st) :
    (tokenize cfg st text).2.getLast? ≠ some BOS_ID ∧
    (∀ i, i + 1 < (tokenize cfg st text).2.length →
      (tokenize cfg st text).2[i]? = some EOS_ID →
      (tokenize cfg st text).2[i + 1]? = some BOS_ID) ∧
    (tokenize cfg st "").2 = [] := by
  have hsh : ∀ w, Lexeme.word w ∈ lexChars (preprocessText cfg text).data → wordShaped w :=
    fun w hw => lexCharsFuel_words_shaped _ _ w hw
  have hinv0 : TokInv [BOS_ID] true := by
    refine ⟨by simp, by simp, ?_, trivial, trivial⟩
    rw [List.head?_cons]
    intro hh
    exact absurd (Option.some.inj hh) (by decide)
  have hmain := processLexemes_inv cfg (lexChars (preprocessText cfg text).data) st
    [BOS_ID] true hwf hsh hinv0
  have hb := boundary_of_inv _ _ hmain.2
  exact ⟨hb.1, hb.2, tokenize_empty cfg st⟩

/-- Witness for claim C5 at a concrete input: tokenizing "ab. cd" on a fresh
tokenizer yields [<S>, ab, </S>, <S>, cd, </S>]; the stream does not end in
`<S>`, the inner `</S>` (index 2) is immediately followed by `<S>`, and the
empty input tokenizes to the empty list. -/
theorem c5_tokenizer_boundary_witness :
    (tokenize defaultTokCfg tokNew "ab. cd").2.getLast? ≠ some BOS_ID ∧
    (tokenize defaultTokCfg tokNew "ab. cd").2[2]? = some EOS_ID ∧
    (tokenize defaultTokCfg tokNew "ab. cd").2[3]? = some BOS_ID ∧
    (tokenize defaultTokCfg tokNew "").2 = [] := by
  have h := c5_tokenizer_boundary defaultTokCfg tokNew "ab. cd" wfTok_tokNew
  exact ⟨h.1, by decide, h.2.1 2 (by decide) (by decide), h.2.2⟩

theorem tokenize_eq (cfg : TokenizerConfig) (st : TokState) (text : String) :
    tokenize cfg st text =
      ((processLexemes cfg st (lexChars (preprocessText cfg text).data) [BOS_ID] true).1,
       (if (processLexemes cfg st (lexChars (preprocessText cfg text).data)
            [BOS_ID] true).2.1.head? = some BOS_ID
        then (processLexemes cfg st (lexChars (preprocessText cfg text).data)
            [BOS_ID] true).2.1.tail
        else if (processLexemes cfg st (lexChars (preprocessText cfg text).data)
            [BOS_ID] true).2.1.head? = some EOS_ID
        then (processLexemes cfg st (lexChars (preprocessText cfg text).data)
            [BOS_ID] true).2.1
        else EOS_ID :: (processLexemes cfg st (lexChars (preprocessText cfg text).data)
            [BOS_ID] true).2.1).reverse) := rfl

theorem processLexemes_wf (cfg : TokenizerConfig) (lexs : List Lexeme) :
    ∀ (st : TokState) (acc : List TokenID) (flag : Bool), WFTok st →
      WFTok (processLexemes cfg st lexs acc flag).1 := by
  induction lexs with
  | nil => intro st acc flag hwf; exact hwf
  | cons lx rest ih =>
      intro st acc flag hwf
      cases lx with
      | word w =>
          by_cases hlen : w.length < cfg.minWordLength
          · rw [processLexemes_word_skip cfg st w rest acc flag hlen]
            exact ih st acc flag hwf
          · rw [processLexemes_word_keep cfg st w rest acc flag hlen]
            exact ih _ _ _ (registerToken_wf st w hwf)
      | punct =>
          cases flag with
          | true =>
              rw [processLexemes_punct_start]
              exact ih st acc true hwf
          | false =>
              rw [processLexemes_punct_emit]
              exact ih st _ true hwf

theorem processLexemes_acc_extend (cfg : TokenizerConfig) (lexs : List Lexeme) :
    ∀ (st : TokState) (acc : List TokenID) (flag : Bool),
      ∃ pre, (processLexemes cfg st lexs acc flag).2.1 = pre ++ acc := by
  induction lexs with
  | nil => intro st acc flag; exact ⟨[], rfl⟩
  | cons lx rest ih =>
      intro st acc flag
      cases lx with
      | word w =>
          by_cases hlen : w.length < cfg.minWordLength
          · rw [processLexemes_word_skip cfg st w rest acc flag hlen]
            exact ih st acc flag
          · rw [processLexemes_word_keep cfg st w rest acc flag hlen]
            obtain ⟨pre, hpre⟩ := ih (registerToken st w).1 ((registerToken st w).2 :: acc) false
            exact ⟨pre ++ [(registerToken st w).2], by rw [hpre]; simp⟩
      | punct =>
          cases flag with
          | true =>
              rw [processLexemes_punct_start]
              exact ih st acc true
          | false =>
              rw [processLexemes_punct_emit]
              obtain ⟨pre, hpre⟩ := ih st (BOS_ID :: EOS_ID :: acc) true
              exact ⟨pre ++ [BOS_ID, EOS_ID], by rw [hpre]; simp⟩

theorem processLexemes_elems (cfg : TokenizerConfig) (lexs : List Lexeme) :
    ∀ (st : TokState) (acc : List TokenID) (flag : Bool) (id : TokenID),
      id ∈ (processLexemes cfg st lexs acc flag).2.1 →
      id ∈ acc ∨ id = BOS_ID ∨ id = EOS_ID ∨
        ∃ w, Lexeme.word w ∈ lexs ∧ cfg.minWordLength ≤ w.length ∧
          lookupStr (processLexemes cfg st lexs acc flag).1.wordToId w = some id := by
  induction lexs with
  | nil =>
      intro st acc flag id h
      exact Or.inl h
  | cons lx rest ih =>
      intro st acc flag id h
      cases lx with
      | word w =>
          by_cases hlen : w.length < cfg.minWordLength
          · rw [processLexemes_word_skip cfg st w rest acc flag hlen] at h ⊢
            rcases ih st acc flag id h with h' | h' | h' | ⟨w', hw1, hw2, hw3⟩
            · exact Or.inl h'
            · exact Or.inr (Or.inl h')
            · exact Or.inr (Or.inr (Or.inl h'))
            · exact Or.inr (Or.inr (Or.inr ⟨w', List.mem_cons_of_mem _ hw1, hw2, hw3⟩))
          · rw [processLexemes_word_keep cfg st w rest acc flag hlen] at h ⊢
            rcases ih _ _ _ id h with h' | h' | h' | ⟨w', hw1, hw2, hw3⟩
            · rcases List.mem_cons.mp h' with heq | hmem
              · refine Or.inr (Or.inr (Or.inr ⟨w, List.mem_cons_self _ _, by omega, ?_⟩))
                subst heq
                exact processLexemes_mono cfg rest _ _ _ w _
                  (registerToken_lookup_self st w)
              · exact Or.inl hmem
            · exact Or.inr (Or.inl h')
            · exact Or.inr (Or.inr (Or.inl h'))
            · exact Or.inr (Or.inr (Or.inr ⟨w', List.mem_cons_of_mem _ hw1, hw2, hw3⟩))
      | punct =>
          cases flag with
          | true =>
              rw [processLexemes_punct_start] at h ⊢
              rcases ih st acc true id h with h' | h' | h' | ⟨w', hw1, hw2, hw3⟩
              · exact Or.inl h'
              · exact Or.inr (Or.inl h')
              · exact Or.inr (Or.inr (Or.inl h'))
              · exact Or.inr (Or.inr (Or.inr ⟨w', List.mem_cons_of_mem _ hw1, hw2, hw3⟩))
          | false =>
              rw [processLexemes_punct_emit] at h ⊢
              rcases ih st _ true id h with h' | h' | h' | ⟨w', hw1, hw2, hw3⟩
              · rcases List.mem_cons.mp h' with heq | hmem
                · exact Or.inr (Or.inl heq)
                · rcases List.mem_cons.mp hmem with heq | hmem'
                  · exact Or.inr (Or.inr (Or.inl heq))
                  · exact Or.inl hmem'
              · exact Or.inr (Or.inl h')
              · exact Or.inr (Or.inr (Or.inl h'))
              · exact Or.inr (Or.inr (Or.inr ⟨w', List.mem_cons_of_mem _ hw1, hw2, hw3⟩))

theorem processLexemes_words (cfg : TokenizerConfig) (lexs : List Lexeme) :
    ∀ (st : TokState) (acc : List TokenID) (flag : Bool) (w : String),
      Lexeme.word w ∈ lexs → cfg.minWordLength ≤ w.length →
      ∃ id, id ∈ (processLexemes cfg st lexs acc flag).2.1 ∧
        lookupStr (processLexemes cfg st lexs acc flag).1.wordToId w = some id := by
  induction lexs with
  | nil =>
      intro st acc flag w hmem
      simp at hmem
  | cons lx rest ih =>
      intro st acc flag w hmem hlen
      cases lx with
      | word w' =>
          by_cases hl : w'.length < cfg.minWordLength
          · rw [processLexemes_word_skip cfg st w' rest acc flag hl]
            rcases List.mem_cons.mp hmem with heq | hmem'
            · have hww : w = w' := by injection heq
              subst hww
              omega
            · exact ih st acc flag w hmem' hlen
          · rw [processLexemes_word_keep cfg st w' rest acc flag hl]
            rcases List.mem_cons.mp hmem with heq | hmem'
            · have hww : w = w' := by injection heq
              subst hww
              refine ⟨(registerToken st w).2, ?_, ?_⟩
              · obtain ⟨pre, hpre⟩ := processLexemes_acc_extend cfg rest
                  (registerToken st w).1 ((registerToken st w).2 :: acc) false
                rw [hpre]
                exact List.mem_append.mpr (Or.inr (List.mem_cons_self _ _))
              · exact processLexemes_mono cfg rest _ _ _ w _
                  (registerToken_lookup_self st w)
            · exact ih _ _ _ w hmem' hlen
      | punct =>
          rcases List.mem_cons.mp hmem with heq | hmem'
          · exact absurd heq (by simp)
          · cases flag with
            | true =>
                rw [processLexemes_punct_start]
                exact ih st acc true w hmem' hlen
            | false =>
                rw [processLexemes_punct_emit]
                exact ih st _ true w hmem' hlen

theorem mem_fixup_cases (acc : List TokenID) (id : TokenID)
    (h : id ∈ (if acc.head? = some BOS_ID then acc.tail
      else if acc.head? = some EOS_ID then acc else EOS_ID :: acc)) :
    id = EOS_ID ∨ id ∈ acc := by
  by_cases hB : acc.head? = some BOS_ID
  · rw [if_pos hB] at h
    exact Or.inr (List.Sublist.mem h (List.tail_sublist acc))
  · rw [if_neg hB] at h
    by_cases hE : acc.head? = some EOS_ID
    · rw [if_pos hE] at h
      exact Or.inr h
    · rw [if_neg hE] at h
      rcases List.mem_cons.mp h with heq | hmem
      · exact Or.inl heq
      · exact Or.inr hmem

theorem mem_fixup_intro (acc : List TokenID) (id : TokenID) (hid : id ≠ BOS_ID)
    (hidacc : id ∈ acc) :
    id ∈ (if acc.head? = some BOS_ID then acc.tail
      else if acc.head? = some EOS_ID then acc else EOS_ID :: acc) := by
  by_cases hB : acc.head? = some BOS_ID
  · rw [if_pos hB]
    cases acc with
    | nil => simp at hidacc
    | cons a t =>
        rw [List.head?_cons] at hB
        have ha : a = BOS_ID := Option.some.inj hB
        rcases List.mem_cons.mp hidacc with heq | hmem
        · exact absurd (heq.trans ha) hid
        · exact hmem
  · rw [if_neg hB]
    by_cases hE : acc.head? = some EOS_ID
    · rw [if_pos hE]
      exact hidacc
    · rw [if_neg hE]
      exact List.mem_cons_of_mem _ hidacc

/-- Claim C7, amended: with a minimum word length above 1 configured,
`tokenize` emits (besides the sentence markers) only ids of scanned words
whose length reaches the minimum — digit runs are filtered like any other
short word — and every scanned word that reaches the minimum is registered
in the vocabulary, mapped to its TokenID and emitted. -/
theorem c7_min_word_length (cfg : TokenizerConfig) (st : TokState) (text : String)
    (hwf : WFTok st) (hmin : 1 < cfg.minWordLength) :
    (∀ id, id ∈ (tokenize cfg st text).2 →
      id = BOS_ID ∨ id = EOS_ID ∨
        ∃ w, Lexeme.word w ∈ lexChars (preprocessText cfg text).data ∧
          cfg.minWordLength ≤ w.length ∧
          lookupStr (tokenize cfg st text).1.wordToId w = some id) ∧
    (∀ w, Lexeme.word w ∈ lexChars (preprocessText cfg text).data →
      cfg.minWordLength ≤ w.length →
      ∃ id, id ∈ (tokenize cfg st text).2 ∧
        lookupStr (tokenize cfg st text).1.wordToId w = some id) := by
  rw [tokenize_eq]
  simp only []
  constructor
  · intro id hid
    rw [List.mem_reverse] at hid
    rcases mem_fixup_cases _ _ hid with heq | hmem
    · exact Or.inr (Or.inl heq)
    · rcases processLexemes_elems cfg _ st [BOS_ID] true id hmem
        with h' | h' | h' | hw
      · rcases List.mem_cons.mp h' with heq | h''
        · exact Or.inl heq
        · simp at h''
      · exact Or.inl h'
      · exact Or.inr (Or.inl h')
      · exact Or.inr (Or.inr hw)
  · intro w hw hlen
    obtain ⟨id, hid1, hid2⟩ := processLexemes_words cfg _ st [BOS_ID] true w hw hlen
    refine ⟨id, ?_, hid2⟩
    rw [List.mem_reverse]
    refine mem_fixup_intro _ _ ?_ hid1
    have hwshape : wordShaped w := lexCharsFuel_words_shaped _ _ w hw
    have hwffin := processLexemes_wf cfg (lexChars (preprocessText cfg text).data) st
      [BOS_ID] true hwf
    intro hbd
    subst hbd
    exact absurd (hwffin.2.2.1 w hid2) (wordShaped_ne_sentinels w hwshape).1

/-- Witness for the amended claim C7: with minimum word length 2, tokenizing
"abc 7 de" keeps "abc" (and drops the digit run "7"); "abc" is mapped to the
fresh TokenID 3 which appears in the output. -/
theorem c7_min_word_length_witness :
    (1 < (⟨true, 2⟩ : TokenizerConfig).minWordLength) ∧
    ∃ id, id ∈ (tokenize ⟨true, 2⟩ tokNew "abc 7 de").2 ∧
      lookupStr (tokenize ⟨true, 2⟩ tokNew "abc 7 de").1.wordToId "abc" = some id :=
  ⟨by decide,
    (c7_min_word_length ⟨true, 2⟩ tokNew "abc 7 de" wfTok_tokNew (by decide)).2
      "abc" (by decide) (by decide)⟩

theorem getQ_addQ_self (res : List (String × ℚ)) (t : String) (p : ℚ) :
    getQ (addQ res t p) t = getQ res t + p := by
  induction res with
  | nil => simp [addQ, getQ]
  | cons hd rest ih =>
      obtain ⟨k, v⟩ := hd
      by_cases hk : k = t
      · rw [addQ, if_pos hk, getQ, if_pos hk, getQ, if_pos hk]
      · rw [addQ, if_neg hk, getQ, if_neg hk, getQ, if_neg hk]
        exact ih

theorem getQ_addQ_other (res : List (String × ℚ)) (t : String) (p : ℚ) (u : String)
    (h : u ≠ t) : getQ (addQ res t p) u = getQ res u := by
  induction res with
  | nil =>
      have hne : ¬ t = u := fun hh => h hh.symm
      simp [addQ, getQ, hne]
  | cons hd rest ih =>
      obtain ⟨k, v⟩ := hd
      by_cases hk : k = t
      · rw [addQ, if_pos hk, getQ, getQ]
        have hku : ¬ k = u := fun hh => h (hh ▸ hk.symm ▸ rfl)
        rw [if_neg (hk ▸ hku), if_neg hku]
      · rw [addQ, if_neg hk, getQ, getQ]
        by_cases hku : k = u
        · rw [if_pos hku, if_pos hku]
        · rw [if_neg hku, if_neg hku]
          exact ih

theorem distribute_ex_mem_iff (denom w : ℚ) (entries : List (String × Nat)) :
    ∀ (res : List (String × ℚ)) (ex : List String) (t : String),
      t ∈ (distribute denom w entries res ex).2 ↔
        t ∈ ex ∨ t ∈ entries.map Prod.fst := by
  induction entries with
  | nil =>
      intro res ex t
      simp [distribute]
  | cons hd rest ih =>
      obtain ⟨k, c⟩ := hd
      intro res ex t
      by_cases hk : k ∈ ex
      · rw [distribute, if_pos hk, ih]
        simp only [List.map_cons, List.mem_cons]
        constructor
        · rintro (h | h)
          · exact Or.inl h
          · exact Or.inr (Or.inr h)
        · rintro (h | h | h)
          · exact Or.inl h
          · exact Or.inl (h ▸ hk)
          · exact Or.inr h
      · rw [distribute, if_neg hk, ih]
        simp only [List.map_cons, List.mem_cons]
        constructor
        · rintro ((h | h) | h)
          · exact Or.inr (Or.inl h)
          · exact Or.inl h
          · exact Or.inr (Or.inr h)
        · rintro (h | h | h)
          · exact Or.inl (Or.inr h)
          · exact Or.inl (Or.inl h)
          · exact Or.inr h

theorem distribute_getQ_not_mem (denom w : ℚ) (entries : List (String × Nat)) :
    ∀ (res : List (String × ℚ)) (ex : List String) (tok : String),
      tok ∉ entries.map Prod.fst →
      getQ (distribute denom w entries res ex).1 tok = getQ res tok := by
  induction entries with
  | nil => intro res ex tok _; rfl
  | cons hd rest ih =>
      obtain ⟨k, c⟩ := hd
      intro res ex tok hnot
      rw [List.map_cons, List.mem_cons] at hnot
      push_neg at hnot
      by_cases hk : k ∈ ex
      · rw [distribute, if_pos hk]
        exact ih res ex tok hnot.2
      · rw [distribute, if_neg hk, ih _ _ tok hnot.2]
        exact getQ_addQ_other res k _ tok hnot.1

theorem distribute_contribution (denom w : ℚ) (entries : List (String × Nat)) :
    ∀ (res : List (String × ℚ)) (ex : List String) (tok : String) (cnt : Nat),
      (entries.map Prod.fst).Nodup → (tok, cnt) ∈ entries → tok ∉ ex →
      getQ (distribute denom w entries res ex).1 tok =
        getQ res tok + ((cnt : ℚ) / denom) * w := by
  induction entries with
  | nil =>
      intro res ex tok cnt hnd hmem
      simp at hmem
  | cons hd rest ih =>
      obtain ⟨k, c⟩ := hd
      intro res ex tok cnt hnd hmem hex
      rcases List.mem_cons.mp hmem with heq | hmem'
      · have hk : tok = k := congrArg Prod.fst heq
        have hc : cnt = c := congrArg Prod.snd heq
        subst hk hc
        rw [distribute, if_neg hex]
        have hnotin : tok ∉ rest.map Prod.fst := by
          rw [List.map_cons, List.nodup_cons] at hnd
          exact hnd.1
        rw [distribute_getQ_not_mem denom w rest _ _ tok hnotin, getQ_addQ_self]
      · have hkne : k ≠ tok := by
          intro hk
          rw [List.map_cons, List.nodup_cons] at hnd
          exact hnd.1 (hk ▸ List.mem_map.mpr ⟨(tok, cnt), hmem', rfl⟩)
        have hnd' : (rest.map Prod.fst).Nodup := by
          rw [List.map_cons, List.nodup_cons] at hnd
          exact hnd.2
        by_cases hkex : k ∈ ex
        · rw [distribute, if_pos hkex]
          exact ih res ex tok cnt hnd' hmem' hex
        · rw [distribute, if_neg hkex]
          rw [ih _ _ tok cnt hnd' hmem' (by
            rw [List.mem_cons]
            push_neg
            exact ⟨fun h => hkne h.symm, hex⟩)]
          rw [getQ_addQ_other res k _ tok (fun h => hkne h.symm)]

/-- Claim C6: the exclusion-backoff recursion at a matched context node with
total `t` and `d` distinct continuations uses the denominator `t + d`:
every observed token outside the excluded set gains `count/(t+d) * weight`
and enters the excluded set, the recursion forwards `weight * d/(t+d)` to
the context with its oldest token dropped, an unmatched context forwards the
full weight unchanged, and for `t = 3`, `d = 2` the escape share is `2/5` of
the weight with each observed token receiving `count/5 * weight`. -/
theorem c6_exclusion_step (root : CNode) (vocab : List String) (c : String)
    (rest : List String) (res : List (String × ℚ)) (ex : List String) (w : ℚ) :
    (∀ node, findNode root (c :: rest) = some node →
      (calcRec root vocab false (c :: rest) res ex w =
        calcRec root vocab false rest
          (distribute ((node.totalCount : ℚ) + (node.counts.length : ℚ)) w
            node.counts res ex).1
          (distribute ((node.totalCount : ℚ) + (node.counts.length : ℚ)) w
            node.counts res ex).2
          (w * ((node.counts.length : ℚ) /
            ((node.totalCount : ℚ) + (node.counts.length : ℚ))))) ∧
      ((node.counts.map Prod.fst).Nodup →
        ∀ tok cnt, (tok, cnt) ∈ node.counts → tok ∉ ex →
        getQ (distribute ((node.totalCount : ℚ) + (node.counts.length : ℚ)) w
            node.counts res ex).1 tok =
          getQ res tok +
            ((cnt : ℚ) / ((node.totalCount : ℚ) + (node.counts.length : ℚ))) * w) ∧
      (∀ tok, tok ∈ (distribute ((node.totalCount : ℚ) + (node.counts.length : ℚ)) w
          node.counts res ex).2 ↔ tok ∈ ex ∨ tok ∈ node.counts.map Prod.fst) ∧
      (node.totalCount = 3 → node.counts.length = 2 →
        w * ((node.counts.length : ℚ) /
          ((node.totalCount : ℚ) + (node.counts.length : ℚ))) = 2 / 5 * w ∧
        ∀ tok cnt, (tok, cnt) ∈ node.counts →
          ((cnt : ℚ) / ((node.totalCount : ℚ) + (node.counts.length : ℚ))) * w =
            (cnt : ℚ) / 5 * w)) ∧
    (findNode root (c :: rest) = none →
      calcRec root vocab false (c :: rest) res ex w =
        calcRec root vocab false rest res ex w) := by
  constructor
  · intro node hfind
    refine ⟨?_, ?_, ?_, ?_⟩
    · rw [calcRec, hfind]
      simp
    · intro hnd tok cnt hmem hex
      exact distribute_contribution _ w node.counts res ex tok cnt hnd hmem hex
    · intro tok
      exact distribute_ex_mem_iff _ w node.counts res ex tok
    · intro ht hd
      rw [ht, hd]
      constructor
      · push_cast
        ring
      · intro tok cnt hmem
        push_cast
        ring
  · intro hfind
    rw [calcRec, hfind]
    simp

/-- Witness for claim C6 on a concrete trie: a node with `total = 3` and two
continuations `b` (count 2), `c` (count 1) under context `a`; the step
equation holds, the forwarded escape weight is `2/5` of the incoming weight,
and `b` receives `2/5` of the weight. -/
theorem c6_exclusion_step_witness :
    (calcRec (CNode.mk [] [("a", CNode.mk [("b", 2), ("c", 1)] [] 3)] 0) ["b", "c"] false
        ["a"] [] [] 1 =
      calcRec (CNode.mk [] [("a", CNode.mk [("b", 2), ("c", 1)] [] 3)] 0) ["b", "c"] false []
        (distribute (((CNode.mk [("b", 2), ("c", 1)] [] 3).totalCount : ℚ) +
            ((CNode.mk [("b", 2), ("c", 1)] [] 3).counts.length : ℚ)) 1
          (CNode.mk [("b", 2), ("c", 1)] [] 3).counts [] []).1
        (distribute (((CNode.mk [("b", 2), ("c", 1)] [] 3).totalCount : ℚ) +
            ((CNode.mk [("b", 2), ("c", 1)] [] 3).counts.length : ℚ)) 1
          (CNode.mk [("b", 2), ("c", 1)] [] 3).counts [] []).2
        (1 * (((CNode.mk [("b", 2), ("c", 1)] [] 3).counts.length : ℚ) /
          (((CNode.mk [("b", 2), ("c", 1)] [] 3).totalCount : ℚ) +
            ((CNode.mk [("b", 2), ("c", 1)] [] 3).counts.length : ℚ))))) ∧
    (1 * (((CNode.mk [("b", 2), ("c", 1)] [] 3).counts.length : ℚ) /
        (((CNode.mk [("b", 2), ("c", 1)] [] 3).totalCount : ℚ) +
          ((CNode.mk [("b", 2), ("c", 1)] [] 3).counts.length : ℚ))) = 2 / 5 * 1) ∧
    getQ (distribute (((CNode.mk [("b", 2), ("c", 1)] [] 3).totalCount : ℚ) +
          ((CNode.mk [("b", 2), ("c", 1)] [] 3).counts.length : ℚ)) 1
        (CNode.mk [("b", 2), ("c", 1)] [] 3).counts [] []).1 "b" =
      getQ [] "b" + ((2 : ℚ) / (((CNode.mk [("b", 2), ("c", 1)] [] 3).totalCount : ℚ) +
        ((CNode.mk [("b", 2), ("c", 1)] [] 3).counts.length : ℚ))) * 1 := by
  have h := c6_exclusion_step (CNode.mk [] [("a", CNode.mk [("b", 2), ("c", 1)] [] 3)] 0)
    ["b", "c"] "a" [] [] [] 1
  have h1 := h.1 (CNode.mk [("b", 2), ("c", 1)] [] 3) rfl
  exact ⟨h1.1, (h1.2.2.2 rfl rfl).1,
    h1.2.1 (by decide) "b" 2 (List.mem_cons_self _ _) (by simp)⟩

theorem sumScores_nil : sumScores [] = 0 := rfl

theorem sumScores_cons (k : String) (v : ℚ) (rest : List (String × ℚ)) :
    sumScores ((k, v) :: rest) = v + sumScores rest := by
  simp [sumScores]

theorem sumScores_addQ (res : List (String × ℚ)) (t : String) (p : ℚ) :
    sumScores (addQ res t p) = sumScores res + p := by
  induction res with
  | nil => simp [addQ, sumScores]
  | cons hd rest ih =>
      obtain ⟨k, v⟩ := hd
      by_cases hk : k = t
      · rw [addQ, if_pos hk, sumScores_cons, sumScores_cons]
        ring
      · rw [addQ, if_neg hk, sumScores_cons, sumScores_cons, ih]
        ring

theorem valsNonneg_nil : ValsNonneg [] := by
  intro p hp
  simp at hp

theorem valsNonneg_addQ (res : List (String × ℚ)) (t : String) (p : ℚ)
    (h : ValsNonneg res) (hp : 0 ≤ p) : ValsNonneg (addQ res t p) := by
  induction res with
  | nil =>
      intro q hq
      rw [addQ] at hq
      rcases List.mem_singleton.mp hq with rfl
      exact hp
  | cons hd rest ih =>
      obtain ⟨k, v⟩ := hd
      have hv : 0 ≤ v := h (k, v) (List.mem_cons_self _ _)
      have hrest : ValsNonneg rest := fun q hq => h q (List.mem_cons_of_mem _ hq)
      by_cases hk : k = t
      · rw [addQ, if_pos hk]
        intro q hq
        rcases List.mem_cons.mp hq with rfl | hq'
        · exact add_nonneg hv hp
        · exact hrest q hq'
      · rw [addQ, if_neg hk]
        intro q hq
        rcases List.mem_cons.mp hq with rfl | hq'
        · exact hv
        · exact ih hrest q hq'

theorem valsNonneg_setQ (res : List (String × ℚ)) (t : String) (p : ℚ)
    (h : ValsNonneg res) (hp : 0 ≤ p) : ValsNonneg (setQ res t p) := by
  induction res with
  | nil =>
      intro q hq
      rw [setQ] at hq
      rcases List.mem_singleton.mp hq with rfl
      exact hp
  | cons hd rest ih =>
      obtain ⟨k, v⟩ := hd
      have hv : 0 ≤ v := h (k, v) (List.mem_cons_self _ _)
      have hrest : ValsNonneg rest := fun q hq => h q (List.mem_cons_of_mem _ hq)
      by_cases hk : k = t
      · rw [setQ, if_pos hk]
        intro q hq
        rcases List.mem_cons.mp hq with rfl | hq'
        · exact hp
        · exact hrest q hq'
      · rw [setQ, if_neg hk]
        intro q hq
        rcases List.mem_cons.mp hq with rfl | hq'
        · exact hv
        · exact ih hrest q hq'

theorem sumScores_setQ_le (res : List (String × ℚ)) (t : String) (p : ℚ)
    (h : ValsNonneg res) (hp : 0 ≤ p) : sumScores (setQ res t p) ≤ sumScores res + p := by
  induction res with
  | nil =>
      rw [setQ, sumScores_cons, sumScores_nil]
      linarith
  | cons hd rest ih =>
      obtain ⟨k, v⟩ := hd
      have hv : 0 ≤ v := h (k, v) (List.mem_cons_self _ _)
      have hrest : ValsNonneg rest := fun q hq => h q (List.mem_cons_of_mem _ hq)
      by_cases hk : k = t
      · rw [setQ, if_pos hk, sumScores_cons, sumScores_cons]
        linarith
      · rw [setQ, if_neg hk, sumScores_cons, sumScores_cons]
        have := ih hrest
        linarith

theorem distribute_sum_le (denom w : ℚ) (entries : List (String × Nat)) :
    ∀ (res : List (String × ℚ)) (ex : List String), 0 ≤ w → 0 ≤ denom → ValsNonneg res →
      sumScores (distribute denom w entries res ex).1 ≤
        sumScores res + (((entries.map (·.2)).sum : Nat) : ℚ) / denom * w := by
  induction entries with
  | nil =>
      intro res ex hw hd hres
      simp [distribute]
  | cons hd rest ih =>
      obtain ⟨k, c⟩ := hd
      intro res ex hw hdenom hres
      have hc : (0 : ℚ) ≤ (c : ℚ) / denom * w := by positivity
      by_cases hk : k ∈ ex
      · rw [distribute, if_pos hk]
        have := ih res ex hw hdenom hres
        refine le_trans this ?_
        have hstep : (((rest.map (·.2)).sum : Nat) : ℚ) / denom * w ≤
            ((((k, c) :: rest).map (·.2)).sum : Nat) / denom * w := by
          rw [List.map_cons, List.sum_cons]
          push_cast
          rw [add_div, add_mul]
          linarith [hc]
        linarith
      · rw [distribute, if_neg hk]
        have hres' : ValsNonneg (addQ res k ((c : ℚ) / denom * w)) :=
          valsNonneg_addQ res k _ hres hc
        have := ih (addQ res k ((c : ℚ) / denom * w)) (k :: ex) hw hdenom hres'
        rw [sumScores_addQ] at this
        refine le_trans this ?_
        rw [List.map_cons, List.sum_cons]
        push_cast
        rw [add_div, add_mul]
        linarith

theorem distribute_valsNonneg (denom w : ℚ) (entries : List (String × Nat)) :
    ∀ (res : List (String × ℚ)) (ex : List String), 0 ≤ w → 0 ≤ denom → ValsNonneg res →
      ValsNonneg (distribute denom w entries res ex).1 := by
  induction entries with
  | nil => intro res ex _ _ hres; exact hres
  | cons hd rest ih =>
      obtain ⟨k, c⟩ := hd
      intro res ex hw hdenom hres
      by_cases hk : k ∈ ex
      · rw [distribute, if_pos hk]
        exact ih res ex hw hdenom hres
      · rw [distribute, if_neg hk]
        exact ih _ _ hw hdenom (valsNonneg_addQ res k _ hres (by positivity))

theorem distribute_ex_nodup (denom w : ℚ) (entries : List (String × Nat)) :
    ∀ (res : List (String × ℚ)) (ex : List String), ex.Nodup →
      (distribute denom w entries res ex).2.Nodup := by
  induction entries with
  | nil => intro res ex h; exact h
  | cons hd rest ih =>
      obtain ⟨k, c⟩ := hd
      intro res ex h
      by_cases hk : k ∈ ex
      · rw [distribute, if_pos hk]
        exact ih res ex h
      · rw [distribute, if_neg hk]
        exact ih _ _ (List.nodup_cons.mpr ⟨hk, h⟩)

theorem omoFold_sum_le (ex : List String) (p : ℚ) (hp : 0 ≤ p) :
    ∀ (l : List String) (res : List (String × ℚ)), ValsNonneg res →
      sumScores (l.foldl (fun r t => if t ∈ ex then r else setQ r t p) res) ≤
        sumScores res + (l.countP (fun t => decide (t ∉ ex)) : ℚ) * p := by
  intro l
  induction l with
  | nil =>
      intro res hres
      simp
  | cons a l ih =>
      intro res hres
      rw [List.foldl_cons, List.countP_cons]
      by_cases ha : a ∈ ex
      · rw [if_pos ha]
        have hdec : (decide (a ∉ ex)) = false := by simp [ha]
        rw [hdec]
        simpa using ih res hres
      · rw [if_neg ha]
        have hdec : (decide (a ∉ ex)) = true := by simp [ha]
        rw [hdec]
        have hres' : ValsNonneg (setQ res a p) := valsNonneg_setQ res a p hres hp
        have h1 := ih (setQ res a p) hres'
        have h2 := sumScores_setQ_le res a p hres hp
        push_cast
        rw [if_pos rfl]
        push_cast at h1
        nlinarith [h1, h2]

theorem countP_not_mem_eq (vocab ex : List String) (hsub : ∀ t ∈ ex, t ∈ vocab)
    (hexnd : ex.Nodup) (hvnd : vocab.Nodup) :
    vocab.countP (fun t => decide (t ∉ ex)) = vocab.length - ex.length := by
  have hsplit : ∀ l : List String, l.countP (fun t => decide (t ∈ ex)) +
      l.countP (fun t => decide (t ∉ ex)) = l.length := by
    intro l
    induction l with
    | nil => rfl
    | cons a l ih =>
        by_cases ha : a ∈ ex
        · rw [List.countP_cons_of_pos _ _ (by simp [ha]),
            List.countP_cons_of_neg _ _ (by simp [ha]), List.length_cons]
          omega
        · rw [List.countP_cons_of_neg _ _ (by simp [ha]),
            List.countP_cons_of_pos _ _ (by simp [ha]), List.length_cons]
          omega
  have hmemcount : vocab.countP (fun t => decide (t ∈ ex)) = ex.length := by
    rw [List.countP_eq_length_filter]
    have hperm : (vocab.filter (fun t => decide (t ∈ ex))).Perm ex := by
      rw [List.perm_ext_iff_of_nodup (List.Nodup.filter _ hvnd) hexnd]
      intro a
      rw [List.mem_filter]
      constructor
      · rintro ⟨-, ha⟩
        simpa using ha
      · intro ha
        exact ⟨hsub a ha, by simpa using ha⟩
    exact hperm.length_eq
  have := hsplit vocab
  omega

theorem handleOrderMinusOne_sum_le (vocab : List String) (res : List (String × ℚ))
    (ex : List String) (w : ℚ) (hres : ValsNonneg res) (hw : 0 ≤ w)
    (hsub : ∀ t ∈ ex, t ∈ vocab) (hexnd : ex.Nodup) (hvnd : vocab.Nodup) :
    sumScores (handleOrderMinusOne vocab res ex w) ≤ sumScores res + w := by
  unfold handleOrderMinusOne
  by_cases hle : vocab.length ≤ ex.length
  · rw [if_pos hle]
    linarith
  · rw [if_neg hle]
    have hu : 0 < vocab.length - ex.length := by omega
    have hp : 0 ≤ w / ((vocab.length - ex.length : Nat) : ℚ) := by positivity
    have hb := omoFold_sum_le ex (w / ((vocab.length - ex.length : Nat) : ℚ)) hp vocab res hres
    rw [countP_not_mem_eq vocab ex hsub hexnd hvnd] at hb
    have hcancel : ((vocab.length - ex.length : Nat) : ℚ) *
        (w / ((vocab.length - ex.length : Nat) : ℚ)) = w := by
      have hne : ((vocab.length - ex.length : Nat) : ℚ) ≠ 0 := by
        simp
        omega
      field_simp
    linarith [hb, le_of_eq hcancel]

theorem wf_total {vocab : List String} {n : CNode} (h : WFNode vocab n) :
    n.totalCount = ((n.counts.map (·.2)).sum) := by
  cases h with
  | mk counts children total h1 h2 h3 => exact h1

theorem wf_keys {vocab : List String} {n : CNode} (h : WFNode vocab n) :
    ∀ k ∈ n.counts.map Prod.fst, k ∈ vocab := by
  cases h with
  | mk counts children total h1 h2 h3 => exact h2

theorem lookupChild_mem (l : List (String × CNode)) (w : String) (c : CNode)
    (h : lookupChild l w = some c) : (w, c) ∈ l := by
  induction l with
  | nil => simp [lookupChild] at h
  | cons hd rest ih =>
      obtain ⟨k, c0⟩ := hd
      rw [lookupChild] at h
      by_cases hk : k = w
      · rw [if_pos hk] at h
        have hc : c0 = c := Option.some.inj h
        subst hc hk
        exact List.mem_cons_self _ _
      · rw [if_neg hk] at h
        exact List.mem_cons_of_mem _ (ih h)

theorem wf_child {vocab : List String} {n : CNode} (h : WFNode vocab n) (w : String)
    (c : CNode) (hc : lookupChild n.children w = some c) : WFNode vocab c := by
  cases h with
  | mk counts children total h1 h2 h3 =>
      exact h3 w c (lookupChild_mem children w c hc)

theorem findNode_wf (vocab : List String) :
    ∀ (ctx : List String) (root node : CNode), WFNode vocab root →
      findNode root ctx = some node → WFNode vocab node := by
  intro ctx
  induction ctx with
  | nil =>
      intro root node hroot hfind
      rw [findNode] at hfind
      rw [← Option.some.inj hfind]
      exact hroot
  | cons w rest ih =>
      intro root node hroot hfind
      rw [findNode] at hfind
      cases hlc : lookupChild root.children w with
      | none => rw [hlc] at hfind; simp at hfind
      | some c =>
          rw [hlc] at hfind
          exact ih c node (wf_child hroot w c hlc) hfind

theorem wf_empty (vocab : List String) : WFNode vocab emptyCNode := by
  refine WFNode.mk vocab [] [] 0 rfl ?_ ?_
  · intro k hk
    simp at hk
  · intro k c hm
    simp at hm

theorem bumpCountS_sum (counts : List (String × Nat)) (tok : String) :
    ((bumpCountS counts tok).map (·.2)).sum = (counts.map (·.2)).sum + 1 := by
  induction counts with
  | nil => rfl
  | cons hd rest ih =>
      obtain ⟨k, v⟩ := hd
      by_cases hk : k = tok
      · rw [bumpCountS, if_pos hk]
        simp
        omega
      · rw [bumpCountS, if_neg hk]
        simp at ih ⊢
        omega

theorem bumpCountS_keys (counts : List (String × Nat)) (tok k : String)
    (h : k ∈ (bumpCountS counts tok).map Prod.fst) :
    k ∈ counts.map Prod.fst ∨ k = tok := by
  induction counts with
  | nil =>
      rw [bumpCountS] at h
      simp at h
      exact Or.inr h
  | cons hd rest ih =>
      obtain ⟨k0, v⟩ := hd
      by_cases hk0 : k0 = tok
      · rw [bumpCountS, if_pos hk0] at h
        rw [List.map_cons] at h
        rcases List.mem_cons.mp h with rfl | h'
        · exact Or.inl (by rw [List.map_cons]; exact List.mem_cons_self _ _)
        · exact Or.inl (by rw [List.map_cons]; exact List.mem_cons_of_mem _ h')
      · rw [bumpCountS, if_neg hk0] at h
        rw [List.map_cons] at h
        rcases List.mem_cons.mp h with rfl | h'
        · exact Or.inl (by rw [List.map_cons]; exact List.mem_cons_self _ _)
        · rcases ih h' with h'' | h''
          · exact Or.inl (by rw [List.map_cons]; exact List.mem_cons_of_mem _ h'')
          · exact Or.inr h''

theorem wf_addToken {vocab : List String} {n : CNode} (h : WFNode vocab n) (tok : String)
    (htok : tok ∈ vocab) : WFNode vocab (n.addToken tok) := by
  cases h with
  | mk counts children total h1 h2 h3 =>
      refine WFNode.mk vocab _ _ _ ?_ ?_ ?_
      · show total + 1 = ((bumpCountS counts tok).map (·.2)).sum
        rw [bumpCountS_sum, ← h1]
      · intro k hk
        rcases bumpCountS_keys counts tok k hk with h' | h'
        · exact h2 k h'
        · exact h' ▸ htok
      · exact h3

theorem setChild_mem (l : List (String × CNode)) (w : String) (cnew : CNode) :
    ∀ k c, (k, c) ∈ setChild l w cnew → (k, c) ∈ l ∨ (k = w ∧ c = cnew) := by
  induction l with
  | nil =>
      intro k c hm
      rw [setChild] at hm
      rcases List.mem_singleton.mp hm with heq
      exact Or.inr ⟨congrArg Prod.fst heq, congrArg Prod.snd heq⟩
  | cons hd rest ih =>
      obtain ⟨k0, c0⟩ := hd
      intro k c hm
      by_cases hk0 : k0 = w
      · rw [setChild, if_pos hk0] at hm
        rcases List.mem_cons.mp hm with heq | hmem
        · exact Or.inr ⟨(congrArg Prod.fst heq).trans hk0, congrArg Prod.snd heq⟩
        · exact Or.inl (List.mem_cons_of_mem _ hmem)
      · rw [setChild, if_neg hk0] at hm
        rcases List.mem_cons.mp hm with heq | hmem
        · exact Or.inl (heq ▸ List.mem_cons_self _ _)
        · rcases ih k c hmem with h' | h'
          · exact Or.inl (List.mem_cons_of_mem _ h')
          · exact Or.inr h'

theorem wf_updateTrie (vocab : List String) (tok : String) (htok : tok ∈ vocab) :
    ∀ (ctx : List String) (n : CNode), WFNode vocab n →
      WFNode vocab (updateTrie n ctx tok) := by
  intro ctx
  induction ctx with
  | nil =>
      intro n h
      exact wf_addToken h tok htok
  | cons w rest ih =>
      intro n h
      have hchild : WFNode vocab ((lookupChild n.children w).getD emptyCNode) := by
        cases hlc : lookupChild n.children w with
        | none => exact wf_empty vocab
        | some c => exact wf_child h w c hlc
      cases h with
      | mk counts children total h1 h2 h3 =>
          refine WFNode.mk vocab _ _ _ h1 h2 ?_
          intro k c hm
          rcases setChild_mem children w _ k c hm with h' | ⟨-, hc⟩
          · exact h3 k c h'
          · rw [hc]
            exact ih _ hchild

theorem wf_mono_all : ∀ {vocab : List String} {n : CNode}, WFNode vocab n →
    ∀ vocab', (∀ t ∈ vocab, t ∈ vocab') → WFNode vocab' n := by
  intro vocab n h
  induction h with
  | mk counts children total h1 h2 h3 ih =>
      intro vocab' hsub
      exact WFNode.mk vocab' counts children total h1
        (fun k hk => hsub k (h2 k hk)) (fun k c hm => ih k c hm vocab' hsub)

theorem foldl_preserve {α β : Type} (P : β → Prop) (f : β → α → β) :
    ∀ (l : List α) (b : β), P b → (∀ b a, P b → a ∈ l → P (f b a)) → P (l.foldl f b) := by
  intro l
  induction l with
  | nil => intro b hb _; exact hb
  | cons a l ih =>
      intro b hb hstep
      rw [List.foldl_cons]
      exact ih (f b a) (hstep b a hb (List.mem_cons_self _ _))
        (fun b' a' hb' ha' => hstep b' a' hb' (List.mem_cons_of_mem _ ha'))

theorem mem_vocabAdd_self (v : List String) (t : String) : t ∈ vocabAdd v t := by
  unfold vocabAdd
  by_cases ht : t ∈ v
  · rw [if_pos ht]
    exact ht
  · rw [if_neg ht]
    simp

theorem mem_vocabAdd_of_mem (v : List String) (u t : String) (h : t ∈ v) :
    t ∈ vocabAdd v u := by
  unfold vocabAdd
  by_cases hu : u ∈ v
  · rw [if_pos hu]
    exact h
  · rw [if_neg hu]
    exact List.mem_append.mpr (Or.inl h)

theorem mem_foldl_vocabAdd (l : List String) :
    ∀ (v : List String) (t : String), t ∈ v → t ∈ l.foldl vocabAdd v := by
  induction l with
  | nil => intro v t h; exact h
  | cons a l ih =>
      intro v t h
      rw [List.foldl_cons]
      exact ih _ t (mem_vocabAdd_of_mem v a t h)

theorem mem_tokens_foldl_vocabAdd (l : List String) :
    ∀ (v : List String) (t : String), t ∈ l → t ∈ l.foldl vocabAdd v := by
  induction l with
  | nil => intro v t h; simp at h
  | cons a l ih =>
      intro v t h
      rw [List.foldl_cons]
      rcases List.mem_cons.mp h with rfl | h'
      · exact mem_foldl_vocabAdd l _ t (mem_vocabAdd_self v t)
      · exact ih _ t h'

theorem nodup_vocabAdd (v : List String) (t : String) (h : v.Nodup) :
    (vocabAdd v t).Nodup := by
  unfold vocabAdd
  by_cases ht : t ∈ v
  · rw [if_pos ht]
    exact h
  · rw [if_neg ht]
    simp [List.nodup_append, h, ht]

theorem nodup_foldl_vocabAdd (l : List String) :
    ∀ v : List String, v.Nodup → (l.foldl vocabAdd v).Nodup := by
  induction l with
  | nil => intro v h; exact h
  | cons a l ih =>
      intro v h
      rw [List.foldl_cons]
      exact ih _ (nodup_vocabAdd v a h)

theorem train_wf (m : PPMModelG) (tokens : List String)
    (h : WFNode m.vocabulary m.root) :
    WFNode (m.train tokens).vocabulary (m.train tokens).root := by
  unfold PPMModelG.train
  by_cases ht : tokens = []
  · rw [if_pos ht]
    exact h
  · rw [if_neg ht]
    have hmono : WFNode (tokens.foldl vocabAdd m.vocabulary) m.root :=
      wf_mono_all h _ (fun t htv => mem_foldl_vocabAdd tokens m.vocabulary t htv)
    refine foldl_preserve (WFNode (tokens.foldl vocabAdd m.vocabulary)) _
      (List.range tokens.length) m.root hmono ?_
    intro r i hr hi
    refine foldl_preserve (WFNode (tokens.foldl vocabAdd m.vocabulary)) _
      (List.range (m.maxOrder + 1)) r hr ?_
    intro r' order hr' horder
    by_cases hoi : order ≤ i
    · rw [if_pos hoi]
      have hilt : i < tokens.length := List.mem_range.mp hi
      have htoki : tokens.getD i "" ∈ tokens := by
        rw [List.getD_eq_getElem tokens "" hilt]
        exact List.getElem_mem hilt
      exact wf_updateTrie _ _ (mem_tokens_foldl_vocabAdd tokens m.vocabulary _ htoki)
        _ r' hr'
    · rw [if_neg hoi]
      exact hr'

theorem trainAll_wf (order : Nat) (tss : List (List String)) :
    WFNode (trainAllG order tss).vocabulary (trainAllG order tss).root ∧
      (trainAllG order tss).vocabulary.Nodup := by
  unfold trainAllG
  refine foldl_preserve (fun m => WFNode m.vocabulary m.root ∧ m.vocabulary.Nodup) _
    tss (freshPPMG order) ⟨wf_empty _, by simp [freshPPMG]⟩ ?_
  intro m ts hm hts
  refine ⟨train_wf m ts hm.1, ?_⟩
  unfold PPMModelG.train
  by_cases ht : ts = []
  · rw [if_pos ht]
    exact hm.2
  · rw [if_neg ht]
    exact nodup_foldl_vocabAdd ts m.vocabulary hm.2

theorem escape_split_le (total d : Nat) (w : ℚ) (hw : 0 ≤ w) :
    ((total : ℚ) / ((total : ℚ) + (d : ℚ))) * w +
      w * ((d : ℚ) / ((total : ℚ) + (d : ℚ))) ≤ w := by
  by_cases h0 : ((total : ℚ) + (d : ℚ)) = 0
  · rw [h0, div_zero, div_zero, zero_mul, mul_zero, add_zero]
    exact hw
  · have heq : ((total : ℚ) / ((total : ℚ) + (d : ℚ))) * w +
        w * ((d : ℚ) / ((total : ℚ) + (d : ℚ))) =
        w * (((total : ℚ) + (d : ℚ)) / ((total : ℚ) + (d : ℚ))) := by ring
    rw [heq, div_self h0, mul_one]

theorem calcRec_sum_le (root : CNode) (vocab : List String) (cutoff : Bool)
    (hwf : WFNode vocab root) (hvnd : vocab.Nodup) :
    ∀ (ctx : List String) (res : List (String × ℚ)) (ex : List String) (w : ℚ),
      0 ≤ w → ValsNonneg res → ex.Nodup → (∀ t ∈ ex, t ∈ vocab) →
      sumScores (calcRec root vocab cutoff ctx res ex w) ≤ sumScores res + w := by
  intro ctx
  induction ctx with
  | nil =>
      intro res ex w hw hres hexnd hexsub
      rw [calcRec]
      by_cases hcut : (cutoff = true ∧ w < cutoffThreshold)
      · rw [if_pos hcut]
        linarith
      · rw [if_neg hcut]
        cases hfn : findNode root [] with
        | none =>
            exact handleOrderMinusOne_sum_le vocab res ex w hres hw hexsub hexnd hvnd
        | some node =>
            have hnwf : WFNode vocab node := findNode_wf vocab [] root node hwf hfn
            have hD : (0 : ℚ) ≤ (node.totalCount : ℚ) + (node.counts.length : ℚ) := by
              positivity
            show sumScores (handleOrderMinusOne vocab
                (distribute ((node.totalCount : ℚ) + (node.counts.length : ℚ)) w
                  node.counts res ex).1
                (distribute ((node.totalCount : ℚ) + (node.counts.length : ℚ)) w
                  node.counts res ex).2
                (w * ((node.counts.length : ℚ) /
                  ((node.totalCount : ℚ) + (node.counts.length : ℚ))))) ≤
              sumScores res + w
            have h1 := distribute_sum_le ((node.totalCount : ℚ) + (node.counts.length : ℚ))
              w node.counts res ex hw hD hres
            have hvn := distribute_valsNonneg ((node.totalCount : ℚ) + (node.counts.length : ℚ))
              w node.counts res ex hw hD hres
            have hnd := distribute_ex_nodup ((node.totalCount : ℚ) + (node.counts.length : ℚ))
              w node.counts res ex hexnd
            have hsub2 : ∀ t ∈ (distribute ((node.totalCount : ℚ) + (node.counts.length : ℚ))
                w node.counts res ex).2, t ∈ vocab := by
              intro t ht
              rcases (distribute_ex_mem_iff ((node.totalCount : ℚ) + (node.counts.length : ℚ))
                  w node.counts res ex t).mp ht with h | h
              · exact hexsub t h
              · exact wf_keys hnwf t h
            have hw' : 0 ≤ w * ((node.counts.length : ℚ) /
                ((node.totalCount : ℚ) + (node.counts.length : ℚ))) := by positivity
            have h2 := handleOrderMinusOne_sum_le vocab _ _ _ hvn hw' hsub2 hnd hvnd
            have htot := wf_total hnwf
            rw [← htot] at h1
            have h3 := escape_split_le node.totalCount node.counts.length w hw
            linarith
  | cons c rest ih =>
      intro res ex w hw hres hexnd hexsub
      rw [calcRec]
      by_cases hcut : (cutoff = true ∧ w < cutoffThreshold)
      · rw [if_pos hcut]
        linarith
      · rw [if_neg hcut]
        cases hfn : findNode root (c :: rest) with
        | none =>
            exact ih res ex w hw hres hexnd hexsub
        | some node =>
            have hnwf : WFNode vocab node := findNode_wf vocab (c :: rest) root node hwf hfn
            have hD : (0 : ℚ) ≤ (node.totalCount : ℚ) + (node.counts.length : ℚ) := by
              positivity
            show sumScores (calcRec root vocab cutoff rest
                (distribute ((node.totalCount : ℚ) + (node.counts.length : ℚ)) w
                  node.counts res ex).1
                (distribute ((node.totalCount : ℚ) + (node.counts.length : ℚ)) w
                  node.counts res ex).2
                (w * ((node.counts.length : ℚ) /
                  ((node.totalCount : ℚ) + (node.counts.length : ℚ))))) ≤
              sumScores res + w
            have h1 := distribute_sum_le ((node.totalCount : ℚ) + (node.counts.length : ℚ))
              w node.counts res ex hw hD hres
            have hvn := distribute_valsNonneg ((node.totalCount : ℚ) + (node.counts.length : ℚ))
              w node.counts res ex hw hD hres
            have hnd := distribute_ex_nodup ((node.totalCount : ℚ) + (node.counts.length : ℚ))
              w node.counts res ex hexnd
            have hsub2 : ∀ t ∈ (distribute ((node.totalCount : ℚ) + (node.counts.length : ℚ))
                w node.counts res ex).2, t ∈ vocab := by
              intro t ht
              rcases (distribute_ex_mem_iff ((node.totalCount : ℚ) + (node.counts.length : ℚ))
                  w node.counts res ex t).mp ht with h | h
              · exact hexsub t h
              · exact wf_keys hnwf t h
            have hw' : 0 ≤ w * ((node.counts.length : ℚ) /
                ((node.totalCount : ℚ) + (node.counts.length : ℚ))) := by positivity
            have h2 := ih _ _ _ hw' hvn hnd hsub2
            have htot := wf_total hnwf
            rw [← htot] at h1
            have h3 := escape_split_le node.totalCount node.counts.length w hw
            linarith

theorem insertDesc_perm (x : String × ℚ) (l : List (String × ℚ)) :
    (insertDesc x l).Perm (x :: l) := by
  induction l with
  | nil => exact List.Perm.refl _
  | cons y ys ih =>
      rw [insertDesc]
      by_cases h : y.2 ≤ x.2
      · rw [if_pos h]
      · rw [if_neg h]
        exact (List.Perm.cons y ih).trans (List.Perm.swap x y ys)

theorem sortDesc_perm (l : List (String × ℚ)) : (sortDesc l).Perm l := by
  induction l with
  | nil => exact List.Perm.refl _
  | cons x xs ih =>
      rw [sortDesc, List.foldr_cons]
      rw [sortDesc] at ih
      exact (insertDesc_perm x (xs.foldr insertDesc [])).trans (List.Perm.cons x ih)

theorem sumScores_perm {l l' : List (String × ℚ)} (h : l.Perm l') :
    sumScores l = sumScores l' := by
  unfold sumScores
  exact List.Perm.sum_eq (h.map (·.2))

/-- **C1** (corrected): for every model obtained from a fresh exclusion-backoff
`PPMModel` by any sequence of `train` calls and every history, with the `1e-9`
early-cutoff guard disabled as in the spec's analysis, the probabilities
returned by `predict` sum to at most 1 — not exactly 1 as claimed: the escape
mass lost to exclusions and the early return of `handleOrderMinusOne` are never
renormalized. -/
theorem c1_sum_le_one (order : Nat) (tss : List (List String)) (history : List String) :
    sumScores ((trainAllG order tss).predictWith false history) ≤ 1 := by
  obtain ⟨hwf, hvnd⟩ := trainAll_wf order tss
  unfold PPMModelG.predictWith
  rw [sumScores_perm (sortDesc_perm _)]
  have h := calcRec_sum_le (trainAllG order tss).root (trainAllG order tss).vocabulary false
    hwf hvnd (jsSliceLast history (trainAllG order tss).maxOrder) [] [] 1
    (by norm_num) valsNonneg_nil List.nodup_nil (by intro t ht; simp at ht)
  simpa [sumScores_nil] using h
